import Mathlib

/-!
Shallow embedding of `src/wdsoo/aropt.py` (class `ARO`): the model-building
and constraint-generation engine for adaptive robust optimization of a water
distribution network.

Conventions of the embedding:
* Numeric values are `ℚ` (the Python floats carry exact rationals in all code
  paths we model; no floating-point rounding is claimed).
* A pandas value that can be NaN is `Option ℚ` / `Option Nat` (`none` = NaN).
* A Python operation that can raise is wrapped in `Except PyErr`.
* `sim.vars` is modeled by its `name` column: a list of row names, the row's
  position being its index (the table has the default RangeIndex).
* Robust constraints (`model.st((...).forall(z_set))`) are recorded as data:
  each scalar constraint keeps its lhs coefficients over the flat decision
  vector `x`, its relation, its rhs constant, its rhs coefficients over the
  flattened uncertain vector `z`, and whether `.forall(z_set)` was attached.
-/

namespace aropt

/-- Python exception classes that the modeled code paths can raise.
`keyError` (a `LookupError` subclass) is what `GRB_STATUS[status]` raises on a
missing key. -/
inductive PyErr where
  | keyError : PyErr
deriving DecidableEq, Repr

/-- A network element as seen by the model builder: its name; when the
element has discrete hydraulic states, the number of entries of its `combs`
list (`none` models `hasattr(element, 'combs') = False`); and its
`vars['flow']` column (one entry per (step, comb) row; only used for
elements with combs). -/
structure Element where
  name : String
  combs : Option Nat
  flow : List ℚ
deriving DecidableEq, Repr

/-- `len(element.combs)` when the element has combs, else the single
continuous state: the width of one time-step block of the element
(`c` in `adapt_ldr`). -/
def Element.stateCount (e : Element) : Nat :=
  match e.combs with
  | some c => c
  | none => 1

/-- Width of an element's full block in the decision vector:
`state count × num_steps` rows of `sim.vars`. -/
def Element.blockW (e : Element) (T : Nat) : Nat :=
  e.stateCount * T

/-- The `name` column of `sim.vars`: for each element in declaration order,
`stateCount e * T` consecutive rows carrying the element's name
(mirrors `declare_variables`, which allocates `len(s.combs)` positions per
pump-station/control-valve step and one per continuous element step). -/
def varsTable (elems : List Element) (T : Nat) : List String :=
  elems.flatMap fun e => List.replicate (e.blockW T) e.name

/-- Positions (pandas row indices) of the rows of the table whose `name`
column equals `name`, counting from `k`: the embedding of
`sim.vars.loc[sim.vars['name'] == name].index`. -/
def nameIndicesFrom (tbl : List String) (name : String) (k : Nat) : List Nat :=
  match tbl with
  | [] => []
  | s :: rest =>
      if s = name then k :: nameIndicesFrom rest name (k + 1)
      else nameIndicesFrom rest name (k + 1)

/-- `sim.vars.loc[sim.vars['name'] == name].index` with the default
positional index. -/
def nameIndices (tbl : List String) (name : String) : List Nat :=
  nameIndicesFrom tbl name 0

/-- `ARO.get_x_idx`: `(index.min(), index.max() + 1)`.
pandas `Index.min` / `Index.max` return NaN on an empty selection — they do
not raise — so the body never produces an `Except.error`; `none` models the
NaN, and `Option.map (· + 1)` models `nan + 1 = nan`. -/
def get_x_idx (tbl : List String) (name : String) :
    Except PyErr (Option Nat × Option Nat) :=
  let idx := nameIndices tbl name
  Except.ok (idx.min?, idx.max?.map (· + 1))

/-- Start offset of the `p`-th element's block in the decision vector. -/
def offsetAt (elems : List Element) (T : Nat) (p : Nat) : Nat :=
  (((elems.take p).map (·.blockW T)).sum)

/-- The element names are pairwise distinct. -/
def nodupNames (elems : List Element) : Prop :=
  (elems.map Element.name).Nodup

theorem nameIndicesFrom_append (xs ys : List String) (name : String) (k : Nat) :
    nameIndicesFrom (xs ++ ys) name k =
      nameIndicesFrom xs name k ++ nameIndicesFrom ys name (k + xs.length) := by
  induction xs generalizing k with
  | nil => simp [nameIndicesFrom]
  | cons a xs ih =>
      simp only [List.cons_append, nameIndicesFrom, List.length_cons, List.append_eq]
      have harith : k + 1 + xs.length = k + (xs.length + 1) := by omega
      by_cases h : a = name
      · rw [if_pos h, if_pos h, ih (k + 1), harith, List.cons_append]
      · rw [if_neg h, if_neg h, ih (k + 1), harith]

theorem nameIndicesFrom_shift (tbl : List String) (name : String) (j : Nat) :
    nameIndicesFrom tbl name j = (nameIndicesFrom tbl name 0).map (· + j) := by
  induction tbl generalizing j with
  | nil => rfl
  | cons a rest ih =>
      by_cases h : a = name
      · simp only [nameIndicesFrom, if_pos h]
        rw [ih (j + 1), ih 1, List.map_cons, List.map_map]
        simp [Function.comp, Nat.add_comm, Nat.add_assoc, Nat.add_left_comm]
      · simp only [nameIndicesFrom, if_neg h]
        rw [ih (j + 1), ih 1, List.map_map]
        simp [Function.comp, Nat.add_comm, Nat.add_assoc, Nat.add_left_comm]

theorem range'_map_add (a n j : Nat) :
    (List.range' a n).map (· + j) = List.range' (a + j) n := by
  induction n generalizing a with
  | zero => simp
  | succ n ih =>
      simp only [List.range'_succ, List.map_cons, ih]
      rw [show a + 1 + j = a + j + 1 by omega]

theorem nameIndicesFrom_replicate_self (n : Nat) (a : String) (k : Nat) :
    nameIndicesFrom (List.replicate n a) a k = List.range' k n := by
  induction n generalizing k with
  | zero => simp [nameIndicesFrom]
  | succ n ih => simp [List.replicate_succ, nameIndicesFrom, ih, List.range'_succ]

theorem nameIndicesFrom_replicate_ne (n : Nat) (a b : String) (k : Nat)
    (h : a ≠ b) : nameIndicesFrom (List.replicate n a) b k = [] := by
  induction n generalizing k with
  | zero => simp [nameIndicesFrom]
  | succ n ih => simp [List.replicate_succ, nameIndicesFrom, h, ih]

theorem nameIndicesFrom_not_mem (tbl : List String) (name : String) (k : Nat)
    (h : name ∉ tbl) : nameIndicesFrom tbl name k = [] := by
  induction tbl generalizing k with
  | nil => rfl
  | cons a rest ih =>
      simp only [List.mem_cons, not_or] at h
      simp [nameIndicesFrom, Ne.symm h.1, ih _ h.2]

/-- C1 helper: an unknown name selects no rows, pandas min/max give NaN. -/
theorem get_x_idx_not_mem (tbl : List String) (name : String)
    (h : name ∉ tbl) : get_x_idx tbl name = Except.ok (none, none) := by
  simp [get_x_idx, nameIndices, nameIndicesFrom_not_mem tbl name 0 h]

theorem min?_range' (k n : Nat) (hn : 0 < n) :
    (List.range' k n).min? = some k := by
  rw [List.min?_eq_some_iff]
  · refine ⟨List.mem_range'.mpr ⟨0, hn, by omega⟩, ?_⟩
    intro b hb
    obtain ⟨i, _, rfl⟩ := List.mem_range'.mp hb
    omega
  · exact fun a => Nat.le_refl a
  · exact fun a b => by omega
  · exact fun a b c => by omega

theorem max?_range' (k n : Nat) (hn : 0 < n) :
    (List.range' k n).max? = some (k + n - 1) := by
  rw [List.max?_eq_some_iff]
  · refine ⟨List.mem_range'.mpr ⟨n - 1, by omega, by omega⟩, ?_⟩
    intro b hb
    obtain ⟨i, hi, rfl⟩ := List.mem_range'.mp hb
    omega
  · exact fun a => Nat.le_refl a
  · exact fun a b => by omega
  · exact fun a b c => by omega

/-- In a table made of per-element blocks with distinct names, the rows named
after the `p`-th element are exactly the positions of its block. -/
theorem nameIndices_varsTable (elems : List Element) (T : Nat)
    (h : nodupNames elems) (p : Nat) (hp : p < elems.length) :
    nameIndices (varsTable elems T) (elems.get ⟨p, hp⟩).name =
      List.range' (offsetAt elems T p) ((elems.get ⟨p, hp⟩).blockW T) := by
  induction elems generalizing p with
  | nil => simp at hp
  | cons e elems ih =>
      have hnd : nodupNames elems := (List.nodup_cons.mp h).2
      have hne : e.name ∉ elems.map Element.name := (List.nodup_cons.mp h).1
      match p with
      | 0 =>
          simp only [varsTable, List.flatMap_cons, nameIndices, List.get,
            offsetAt, List.take_zero, List.map_nil, List.sum_nil]
          rw [nameIndicesFrom_append]
          rw [nameIndicesFrom_replicate_self]
          have : nameIndicesFrom (elems.flatMap fun x => List.replicate (x.blockW T) x.name)
              e.name (0 + (List.replicate (e.blockW T) e.name).length) = [] := by
            apply nameIndicesFrom_not_mem
            intro hmem
            apply hne
            obtain ⟨x, hx, hxmem⟩ := List.mem_flatMap.mp hmem
            have := List.eq_of_mem_replicate hxmem
            exact this ▸ List.mem_map_of_mem Element.name hx
          rw [this, List.append_nil]
      | p + 1 =>
          have hp2 : p < elems.length := by simpa using hp
          rw [show (e :: elems).get ⟨p + 1, hp⟩ = elems.get ⟨p, hp2⟩ from rfl]
          simp only [varsTable, List.flatMap_cons, nameIndices] at *
          rw [nameIndicesFrom_append]
          have hgetmem : (elems.get ⟨p, hp2⟩) ∈ elems := List.get_mem elems p hp2
          have hne2 : e.name ≠ (elems.get ⟨p, hp2⟩).name := by
            intro hcontra
            exact hne (hcontra ▸ List.mem_map_of_mem Element.name hgetmem)
          rw [nameIndicesFrom_replicate_ne _ _ _ _ hne2, List.nil_append]
          have ihp := ih hnd p hp2
          simp only [nameIndices] at ihp
          rw [nameIndicesFrom_shift, ihp, List.length_replicate]
          rw [range'_map_add]
          congr 1
          simp only [offsetAt, List.take_succ_cons, List.map_cons, List.sum_cons]
          omega

/-- Layout invariant: in a well-formed table the `p`-th element's range is
`[offset, offset + stateCount * T)`. -/
theorem get_x_idx_varsTable (elems : List Element) (T : Nat)
    (h : nodupNames elems) (p : Nat) (hp : p < elems.length)
    (hw : 0 < (elems.get ⟨p, hp⟩).blockW T) :
    get_x_idx (varsTable elems T) (elems.get ⟨p, hp⟩).name =
      Except.ok (some (offsetAt elems T p),
        some (offsetAt elems T p + (elems.get ⟨p, hp⟩).blockW T)) := by
  simp only [get_x_idx, nameIndices_varsTable elems T h p hp,
    min?_range' _ _ hw, max?_range' _ _ hw, Option.map]
  have : offsetAt elems T p + (elems.get ⟨p, hp⟩).blockW T - 1 + 1 =
      offsetAt elems T p + (elems.get ⟨p, hp⟩).blockW T := by omega
  rw [this]

/-- **C1** (corrected). The claim asserts that `get_x_idx` fails with a
`LookupError`-class condition on an unknown element name and never silently
returns an empty or invalid range. In fact pandas `Index.min`/`Index.max`
return NaN on the empty selection produced by an unknown name, and
`nan + 1 = nan`, so `get_x_idx` silently returns the invalid pair
`(NaN, NaN)` — here `(none, none)` — and raises nothing. Amended claim: for
every name absent from the decision-variable table, `get_x_idx` returns
`Except.ok (none, none)` (no error is raised, and the range is the NaN pair,
not a usable half-open interval). -/
theorem C1_get_x_idx_unknown_name (tbl : List String) (name : String)
    (h : name ∉ tbl) :
    get_x_idx tbl name = Except.ok (none, none) :=
  get_x_idx_not_mem tbl name h

/-- **C1** witness: a concrete two-element table and the absent name
`"ghost"`. -/
theorem C1_get_x_idx_unknown_name_witness :
    "ghost" ∉ ["a", "a", "b"] ∧
      get_x_idx ["a", "a", "b"] "ghost" = Except.ok (none, none) :=
  ⟨by decide, C1_get_x_idx_unknown_name ["a", "a", "b"] "ghost" (by decide)⟩

/-- **C1** counterexample to the claim as stated: on the concrete table
`["a","a","b"]` and the unknown name `"ghost"`, `get_x_idx` does not produce
any `Except.error` (no `LookupError`-class condition): it silently returns
the NaN pair, i.e. an empty/invalid range. -/
theorem C1_counterexample :
    "ghost" ∉ ["a", "a", "b"] ∧
      (∀ e : PyErr, get_x_idx ["a", "a", "b"] "ghost" ≠ Except.error e) ∧
      get_x_idx ["a", "a", "b"] "ghost" = Except.ok (none, none) := by
  have hok : get_x_idx ["a", "a", "b"] "ghost" = Except.ok (none, none) := rfl
  exact ⟨by decide, fun e hcontra => by rw [hok] at hcontra; exact Except.noConfusion hcontra,
    hok⟩

/-- pandas `Series.unique`: values in order of first occurrence.
`seen` accumulates the values already emitted. -/
def pdUniqueAux : List String → List String → List String
  | _, [] => []
  | seen, s :: rest =>
      if s ∈ seen then pdUniqueAux seen rest
      else s :: pdUniqueAux (seen ++ [s]) rest

/-- `sim.vars['name'].unique()`. -/
def pdUnique (tbl : List String) : List String :=
  pdUniqueAux [] tbl

theorem pdUniqueAux_replicate_mem (rest : List String) (seen : List String)
    (a : String) (n : Nat) (h : a ∈ seen) :
    pdUniqueAux seen (List.replicate n a ++ rest) = pdUniqueAux seen rest := by
  induction n with
  | zero => simp
  | succ n ih => simp [List.replicate_succ, pdUniqueAux, h, ih]

theorem pdUniqueAux_varsTable (elems : List Element) (T : Nat) :
    ∀ seen : List String, (∀ e ∈ elems, 0 < e.blockW T) → nodupNames elems →
    (∀ e ∈ elems, e.name ∉ seen) →
    pdUniqueAux seen (varsTable elems T) = elems.map Element.name := by
  induction elems with
  | nil => intro seen _ _ _; rfl
  | cons e elems ih =>
      intro seen hw hnd hseen
      have hbw : 0 < e.blockW T := hw e (List.mem_cons_self e elems)
      obtain ⟨m, hm⟩ : ∃ m, e.blockW T = m + 1 := ⟨e.blockW T - 1, by omega⟩
      simp only [varsTable, List.flatMap_cons, hm, List.replicate_succ,
        List.cons_append, pdUniqueAux]
      rw [if_neg (hseen e (List.mem_cons_self e elems))]
      have hrepl := pdUniqueAux_replicate_mem
        (elems.flatMap fun x => List.replicate (x.blockW T) x.name)
        (seen ++ [e.name]) e.name m (by simp)
      rw [hrepl]
      have hnd2 : nodupNames elems := (List.nodup_cons.mp hnd).2
      have hne : e.name ∉ elems.map Element.name := (List.nodup_cons.mp hnd).1
      have hseen2 : ∀ x ∈ elems, x.name ∉ seen ++ [e.name] := by
        intro x hx
        simp only [List.mem_append, List.mem_singleton, not_or]
        refine ⟨hseen x (List.mem_cons_of_mem e hx), ?_⟩
        intro hcontra
        exact hne (hcontra ▸ List.mem_map_of_mem Element.name hx)
      have hih := ih (seen ++ [e.name])
        (fun x hx => hw x (List.mem_cons_of_mem e hx)) hnd2 hseen2
      simp only [varsTable] at hih
      rw [hih, List.map_cons]

theorem pdUnique_varsTable (elems : List Element) (T : Nat)
    (hw : ∀ e ∈ elems, 0 < e.blockW T) (hnd : nodupNames elems) :
    pdUnique (varsTable elems T) = elems.map Element.name :=
  pdUniqueAux_varsTable elems T [] hw hnd (by simp)

theorem find?_by_name (elems : List Element) (hnd : nodupNames elems)
    (p : Nat) (hp : p < elems.length) :
    elems.find? (fun e => e.name == (elems.get ⟨p, hp⟩).name) =
      some (elems.get ⟨p, hp⟩) := by
  induction elems generalizing p with
  | nil => simp at hp
  | cons e elems ih =>
      match p with
      | 0 => exact List.find?_cons_of_pos _ (by simp)
      | p + 1 =>
          have hp2 : p < elems.length := by simpa using hp
          rw [show (e :: elems).get ⟨p + 1, hp⟩ = elems.get ⟨p, hp2⟩ from rfl]
          have hne : e.name ∉ elems.map Element.name := (List.nodup_cons.mp hnd).1
          have hne2 : e.name ≠ (elems.get ⟨p, hp2⟩).name := by
            intro hcontra
            exact hne (hcontra ▸
              List.mem_map_of_mem Element.name (List.get_mem elems p hp2))
          rw [List.find?_cons_of_neg _ (by simpa using hne2)]
          exact ih (List.nodup_cons.mp hnd).2 p hp2

theorem offsetAt_succ (elems : List Element) (T : Nat) (p : Nat)
    (hp : p < elems.length) :
    offsetAt elems T (p + 1) =
      offsetAt elems T p + (elems.get ⟨p, hp⟩).blockW T := by
  simp only [offsetAt, List.map_take]
  rw [List.sum_take_succ _ p (by simpa using hp)]
  simp

theorem offsetAt_le_succ (elems : List Element) (T : Nat) (p : Nat) :
    offsetAt elems T p ≤ offsetAt elems T (p + 1) := by
  by_cases hp : p < elems.length
  · rw [offsetAt_succ elems T p hp]; omega
  · have h1 : elems.take p = elems := List.take_of_length_le (by omega)
    have h2 : elems.take (p + 1) = elems := List.take_of_length_le (by omega)
    simp [offsetAt, h1, h2]

theorem offsetAt_mono (elems : List Element) (T : Nat) {p q : Nat} (h : p ≤ q) :
    offsetAt elems T p ≤ offsetAt elems T q := by
  induction q with
  | zero =>
      have hzero : p = 0 := by omega
      subst hzero
      exact Nat.le_refl _
  | succ q ih =>
      rcases Nat.lt_or_ge p (q + 1) with h2 | h2
      · exact (ih (by omega)).trans (offsetAt_le_succ elems T q)
      · have : p = q + 1 := by omega
        subst this
        exact Nat.le_refl _

/-- Blocks of distinct elements are disjoint in the decision vector. -/
theorem block_disjoint (elems : List Element) (T : Nat) (p q : Nat)
    (hp : p < elems.length) (hq : q < elems.length) (hpq : p ≠ q) (i : Nat)
    (h1 : offsetAt elems T p ≤ i)
    (h2 : i < offsetAt elems T p + (elems.get ⟨p, hp⟩).blockW T)
    (h3 : offsetAt elems T q ≤ i)
    (h4 : i < offsetAt elems T q + (elems.get ⟨q, hq⟩).blockW T) : False := by
  rcases Nat.lt_or_ge p q with hlt | hge
  · have := offsetAt_succ elems T p hp
    have := offsetAt_mono elems T (show p + 1 ≤ q by omega)
    omega
  · have hlt : q < p := by omega
    have := offsetAt_succ elems T q hq
    have := offsetAt_mono elems T (show q + 1 ≤ p by omega)
    omega

/-- One `self.x[lo:hi].adapt(self.z[:hist, :])` call: the slice `[xlo, xhi)`
of the decision vector is declared affine in the uncertain rows of steps
`0, …, hist − 1` (all uncertain columns). -/
structure AdaptCall where
  xlo : Nat
  xhi : Nat
  hist : Nat
deriving DecidableEq, Repr

/-- `ARO.adapt_ldr`: for every name of `sim.vars['name'].unique()`, with
`c = len(element.combs)` when the element has combs else `1`, and for every
`t in range(1, num_steps)`, adapt `x[xmin_idx + t*c : xmin_idx + (t+1)*c]`
to `z[:t, :]`.  The two fallback branches are unreachable for a table built
from the network's elements (Python would raise on them: a missing network
key or a NaN slice bound). -/
def adapt_ldr (elems : List Element) (T : Nat) : List AdaptCall :=
  (pdUnique (varsTable elems T)).flatMap fun element_name =>
    match elems.find? (fun e => e.name == element_name) with
    | none => []
    | some element =>
        match get_x_idx (varsTable elems T) element_name with
        | Except.ok (some xmin_idx, _) =>
            (List.range' 1 (T - 1)).map fun t =>
              AdaptCall.mk (xmin_idx + t * element.stateCount)
                (xmin_idx + (t + 1) * element.stateCount) t
        | _ => []

/-- Unfolding of `adapt_ldr` over a well-formed table: one batch of calls per
element, in declaration order. -/
theorem adapt_ldr_eq (elems : List Element) (T : Nat) (hnd : nodupNames elems)
    (hT : 0 < T) (hc : ∀ e ∈ elems, 0 < e.stateCount) :
    adapt_ldr elems T =
      (List.range elems.length).flatMap fun p =>
        if hp : p < elems.length then
          (List.range' 1 (T - 1)).map fun t =>
            AdaptCall.mk
              (offsetAt elems T p + t * (elems.get ⟨p, hp⟩).stateCount)
              (offsetAt elems T p + (t + 1) * (elems.get ⟨p, hp⟩).stateCount) t
        else [] := by
  have hw : ∀ e ∈ elems, 0 < e.blockW T := fun e he =>
    Nat.mul_pos (hc e he) hT
  unfold adapt_ldr
  rw [pdUnique_varsTable elems T hw hnd]
  have hmap : elems.map Element.name =
      (List.range elems.length).map
        (fun p => if hp : p < elems.length then (elems.get ⟨p, hp⟩).name else "") := by
    apply List.ext_get
    · simp
    · intro n h1 h2
      have hn : n < elems.length := by simpa using h1
      simp only [List.get_map]
      simp [hn]
  rw [hmap, List.flatMap_map]
  apply List.flatMap_congr
  intro p hp0
  have hp : p < elems.length := by simpa using hp0
  simp only [dif_pos hp]
  rw [find?_by_name elems hnd p hp]
  rw [get_x_idx_varsTable elems T hnd p hp (hw _ (List.get_mem elems p hp))]

/-- Membership characterization of the adaptation calls. -/
theorem adapt_ldr_mem (elems : List Element) (T : Nat) (hnd : nodupNames elems)
    (hT : 0 < T) (hc : ∀ e ∈ elems, 0 < e.stateCount) (call : AdaptCall) :
    call ∈ adapt_ldr elems T ↔
      ∃ (p : Nat) (hp : p < elems.length) (t : Nat), 1 ≤ t ∧ t < T ∧
        call = AdaptCall.mk
          (offsetAt elems T p + t * (elems.get ⟨p, hp⟩).stateCount)
          (offsetAt elems T p + (t + 1) * (elems.get ⟨p, hp⟩).stateCount) t := by
  rw [adapt_ldr_eq elems T hnd hT hc]
  rw [List.mem_flatMap]
  constructor
  · rintro ⟨p, hp0, hin⟩
    have hp : p < elems.length := by simpa using hp0
    rw [dif_pos hp] at hin
    obtain ⟨t, hmem, rfl⟩ := List.mem_map.mp hin
    obtain ⟨i, hi, rfl⟩ := List.mem_range'.mp hmem
    exact ⟨p, hp, 1 + 1 * i, by omega, by omega, rfl⟩
  · rintro ⟨p, hp, t, ht1, ht2, rfl⟩
    refine ⟨p, by simpa using hp, ?_⟩
    rw [dif_pos hp]
    exact List.mem_map.mpr
      ⟨t, List.mem_range'.mpr ⟨t - 1, by omega, by omega⟩, rfl⟩

/-- If an adaptation call covers the entry of element `q` at step `t`
(state `j`), then the call's history horizon is exactly `t`. -/
theorem adapt_ldr_cover (elems : List Element) (T : Nat) (hnd : nodupNames elems)
    (hT : 0 < T) (hc : ∀ e ∈ elems, 0 < e.stateCount) (call : AdaptCall)
    (hcall : call ∈ adapt_ldr elems T) (q : Nat) (hq : q < elems.length)
    (t j : Nat) (ht : t < T) (hj : j < (elems.get ⟨q, hq⟩).stateCount)
    (h1 : call.xlo ≤ offsetAt elems T q + t * (elems.get ⟨q, hq⟩).stateCount + j)
    (h2 : offsetAt elems T q + t * (elems.get ⟨q, hq⟩).stateCount + j < call.xhi) :
    call.hist = t := by
  obtain ⟨p, hp, u, hu1, hu2, rfl⟩ :=
    (adapt_ldr_mem elems T hnd hT hc call).mp hcall
  simp only at h1 h2 ⊢
  by_cases hpq : p = q
  · subst hpq
    have hcg : elems.get ⟨p, hq⟩ = elems.get ⟨p, hp⟩ := rfl
    rw [hcg] at hj h1 h2
    set c := (elems.get ⟨p, hp⟩).stateCount with hcdef
    have e1 : (u + 1) * c = u * c + c := Nat.succ_mul u c
    have e2 : (t + 1) * c = t * c + c := Nat.succ_mul t c
    rcases Nat.lt_trichotomy u t with hlt | heq | hgt
    · have hmono : (u + 1) * c ≤ t * c := Nat.mul_le_mul_right c (by omega)
      omega
    · omega
    · have hmono : (t + 1) * c ≤ u * c := Nat.mul_le_mul_right c (by omega)
      omega
  · exfalso
    set cq := (elems.get ⟨q, hq⟩).stateCount with hcq
    set cp := (elems.get ⟨p, hp⟩).stateCount with hcp
    have hbwq : t * cq + j < (elems.get ⟨q, hq⟩).blockW T := by
      have hm := Nat.mul_le_mul_right cq (show t + 1 ≤ T by omega)
      rw [Nat.succ_mul] at hm
      simp only [Element.blockW, ← hcq]
      rw [Nat.mul_comm cq T] at *
      omega
    have hbwp1 : offsetAt elems T p ≤ offsetAt elems T q + t * cq + j := by
      have : offsetAt elems T p ≤ offsetAt elems T p + u * cp := by omega
      omega
    have hbwp2 : offsetAt elems T q + t * cq + j <
        offsetAt elems T p + (elems.get ⟨p, hp⟩).blockW T := by
      have hm := Nat.mul_le_mul_right cp (show u + 1 ≤ T by omega)
      simp only [Element.blockW, ← hcp]
      rw [Nat.mul_comm cp T] at *
      omega
    exact block_disjoint elems T p q hp hq hpq
      (offsetAt elems T q + t * cq + j) hbwp1 hbwp2 (by omega)
      (by simp only [Element.blockW, ← hcq] at hbwq ⊢; omega)

/-- **C2** (confirmed). For every element and every step `1 ≤ t < T`, the
adaptive-decision-rule binder emits exactly one call binding that element's
step-`t` block (width = its state count) to `z[:t, :]` (all uncertain rows of
steps strictly before `t`); every emitted call is of this form; no call
touches any element's step-0 block; and whenever a call covers the decision
entry of element `q` at step `t`, every bound `z` step `s < call.hist`
satisfies `s < t` — strict causality: no decision at step `t` depends on `z`
at any step `≥ t`. -/
theorem C2_adapt_ldr_strict_causality (elems : List Element) (T : Nat)
    (hnd : nodupNames elems) (hT : 0 < T)
    (hc : ∀ e ∈ elems, 0 < e.stateCount) :
    (∀ (p : Nat) (hp : p < elems.length) (t : Nat), 1 ≤ t → t < T →
      AdaptCall.mk
        (offsetAt elems T p + t * (elems.get ⟨p, hp⟩).stateCount)
        (offsetAt elems T p + (t + 1) * (elems.get ⟨p, hp⟩).stateCount) t
        ∈ adapt_ldr elems T)
    ∧ (∀ call ∈ adapt_ldr elems T, ∃ (p : Nat) (hp : p < elems.length) (t : Nat),
        1 ≤ t ∧ t < T ∧
        call = AdaptCall.mk
          (offsetAt elems T p + t * (elems.get ⟨p, hp⟩).stateCount)
          (offsetAt elems T p + (t + 1) * (elems.get ⟨p, hp⟩).stateCount) t)
    ∧ (∀ call ∈ adapt_ldr elems T, ∀ (q : Nat) (hq : q < elems.length) (j : Nat),
        j < (elems.get ⟨q, hq⟩).stateCount →
        ¬ (call.xlo ≤ offsetAt elems T q + j ∧
           offsetAt elems T q + j < call.xhi))
    ∧ (∀ call ∈ adapt_ldr elems T, ∀ (q : Nat) (hq : q < elems.length) (t j : Nat),
        t < T → j < (elems.get ⟨q, hq⟩).stateCount →
        call.xlo ≤ offsetAt elems T q + t * (elems.get ⟨q, hq⟩).stateCount + j →
        offsetAt elems T q + t * (elems.get ⟨q, hq⟩).stateCount + j < call.xhi →
        ∀ s, s < call.hist → s < t) := by
  refine ⟨?_, ?_, ?_, ?_⟩
  · intro p hp t ht1 ht2
    exact (adapt_ldr_mem elems T hnd hT hc _).mpr ⟨p, hp, t, ht1, ht2, rfl⟩
  · intro call hcall
    exact (adapt_ldr_mem elems T hnd hT hc call).mp hcall
  · intro call hcall q hq j hj hcontra
    have hcov : call.hist = 0 := by
      have := adapt_ldr_cover elems T hnd hT hc call hcall q hq 0 j hT hj
        (by simpa using hcontra.1) (by simpa using hcontra.2)
      exact this
    obtain ⟨p, hp, t, ht1, _, rfl⟩ :=
      (adapt_ldr_mem elems T hnd hT hc call).mp hcall
    simp only at hcov
    omega
  · intro call hcall q hq t j ht hj h1 h2 s hs
    have := adapt_ldr_cover elems T hnd hT hc call hcall q hq t j ht hj h1 h2
    omega

/-- **C2** witness: two elements (a pump station with 2 combs, a continuous
element), horizon `T = 3`; instantiating the causality theorem and checking
its side conditions concretely. -/
theorem C2_adapt_ldr_strict_causality_witness :
    nodupNames [Element.mk "ps" (some 2) [], Element.mk "vsp" none []] ∧
      (0 : Nat) < 3 ∧
      (∀ e ∈ [Element.mk "ps" (some 2) [], Element.mk "vsp" none []],
        0 < e.stateCount) ∧
      (∀ call ∈ adapt_ldr [Element.mk "ps" (some 2) [], Element.mk "vsp" none []] 3,
        ∃ (p : Nat)
          (hp : p < ([Element.mk "ps" (some 2) [], Element.mk "vsp" none []]).length)
          (t : Nat), 1 ≤ t ∧ t < 3 ∧
          call = AdaptCall.mk
            (offsetAt [Element.mk "ps" (some 2) [], Element.mk "vsp" none []] 3 p +
              t * (([Element.mk "ps" (some 2) [], Element.mk "vsp" none []]).get
                ⟨p, hp⟩).stateCount)
            (offsetAt [Element.mk "ps" (some 2) [], Element.mk "vsp" none []] 3 p +
              (t + 1) * (([Element.mk "ps" (some 2) [],
                Element.mk "vsp" none []]).get ⟨p, hp⟩).stateCount) t) :=
  ⟨by unfold nodupNames; decide, by decide, by decide,
    (C2_adapt_ldr_strict_causality
      [Element.mk "ps" (some 2) [], Element.mk "vsp" none []] 3
      (by unfold nodupNames; decide) (by decide) (by decide)).2.1⟩

/-- Comparison operator of a scalar constraint (`<=`, `>=`, `==`). -/
inductive Rel where
  | le : Rel
  | ge : Rel
  | eq : Rel
deriving DecidableEq, Repr

/-- One scalar robust constraint `Σ lhs_i · x_i  rel  rcst + Σ rz_j · z_j`,
with `robust = true` when `.forall(z_set)` was attached.  `lhs` pairs a flat
decision-vector index with its coefficient; `rz` pairs a flattened-`z` index
with its coefficient. -/
structure SConstr where
  lhs : List (Nat × ℚ)
  rel : Rel
  rcst : ℚ
  rz : List (Nat × ℚ)
  robust : Bool
deriving DecidableEq, Repr

/-- Value of a linear combination at a valuation. -/
def lcEval (l : List (Nat × ℚ)) (v : Nat → ℚ) : ℚ :=
  (l.map fun p => p.2 * v p.1).sum

def Rel.holds : Rel → ℚ → ℚ → Prop
  | Rel.le, a, b => a ≤ b
  | Rel.ge, a, b => b ≤ a
  | Rel.eq, a, b => a = b

/-- Satisfaction of a scalar constraint at decisions `x` and realization `z`. -/
def SConstr.sat (c : SConstr) (x z : Nat → ℚ) : Prop :=
  c.rel.holds (lcEval c.lhs x) (c.rcst + lcEval c.rz z)

/-- A variable-speed pump: `min_flow`, `max_flow` and `init_flow`
(`none` models `np.isnan(vsp.init_flow)`). -/
structure Vsp where
  name : String
  min_flow : ℚ
  max_flow : ℚ
  init_flow : Option ℚ
deriving DecidableEq, Repr

/-- The network sub-collections that `range_constraints` iterates, by name
(each name also appears in the element list that generated `sim.vars`). -/
structure Network where
  pump_stations : List String
  vsp : List Vsp
  wells : List String
  control_valves : List String
  valves : List String
deriving DecidableEq, Repr

/-- One `model.st((x[lo:hi] >= lob).forall(z_set))` and
`model.st((x[lo:hi] <= upb).forall(z_set))` pair, scalarized entrywise:
the loop body shared by the pump-station / well / control-valve / valve
branches of `range_constraints` (with `lob = 0`, `upb = 1`). -/
def boundBlock (tbl : List String) (name : String) (lob upb : ℚ) :
    List SConstr :=
  match get_x_idx tbl name with
  | Except.ok (some lo, some hi) =>
      ((List.range' lo (hi - lo)).map fun i =>
        SConstr.mk [(i, 1)] Rel.ge lob [] true)
      ++ ((List.range' lo (hi - lo)).map fun i =>
        SConstr.mk [(i, 1)] Rel.le upb [] true)
  | _ => []

/-- The VSP branch of `range_constraints`: bound to `[min_flow, max_flow]`
and, when `init_flow` is not NaN, pin `x[xmin_idx]` (the step-0 decision of
this width-1 element) to `init_flow`. -/
def vspRange (tbl : List String) (v : Vsp) : List SConstr :=
  match get_x_idx tbl v.name with
  | Except.ok (some lo, some hi) =>
      ((List.range' lo (hi - lo)).map fun i =>
        SConstr.mk [(i, 1)] Rel.ge v.min_flow [] true)
      ++ ((List.range' lo (hi - lo)).map fun i =>
        SConstr.mk [(i, 1)] Rel.le v.max_flow [] true)
      ++ (match v.init_flow with
          | some f0 => [SConstr.mk [(lo, 1)] Rel.eq f0 [] true]
          | none => [])
  | _ => []

/-- `ARO.range_constraints`: iterates pump stations, VSPs, wells, control
valves and plain valves, in that order. -/
def range_constraints (net : Network) (tbl : List String) : List SConstr :=
  net.pump_stations.flatMap (fun s_name => boundBlock tbl s_name 0 1)
  ++ net.vsp.flatMap (vspRange tbl)
  ++ net.wells.flatMap (fun w_name => boundBlock tbl w_name 0 1)
  ++ net.control_valves.flatMap (fun cv_name => boundBlock tbl cv_name 0 1)
  ++ net.valves.flatMap (fun v_name => boundBlock tbl v_name 0 1)

theorem boundBlock_mem (tbl : List String) (name : String) (lob upb : ℚ)
    (lo hi : Nat) (h : get_x_idx tbl name = Except.ok (some lo, some hi))
    (i : Nat) (h1 : lo ≤ i) (h2 : i < hi) :
    SConstr.mk [(i, 1)] Rel.ge lob [] true ∈ boundBlock tbl name lob upb ∧
    SConstr.mk [(i, 1)] Rel.le upb [] true ∈ boundBlock tbl name lob upb := by
  unfold boundBlock
  rw [h]
  constructor
  · exact List.mem_append_left _
      (List.mem_map.mpr ⟨i, List.mem_range'.mpr ⟨i - lo, by omega, by omega⟩, rfl⟩)
  · exact List.mem_append_right _
      (List.mem_map.mpr ⟨i, List.mem_range'.mpr ⟨i - lo, by omega, by omega⟩, rfl⟩)

/-- **C6** (confirmed). For every pump station, well, control valve and plain
valve, every entry of the element's decision block is bounded to `[0, 1]`
robustly (robust flag set, no `z` dependence in the bound); for every VSP the
block is bounded to `[min_flow, max_flow]` robustly; and exactly when the
VSP's `init_flow` is not NaN (`some f0`), the step-0 decision `x[xmin_idx]`
is pinned to `init_flow` robustly — when it is NaN, the VSP's branch emits no
equality constraint at all. -/
theorem C6_range_constraints_bounds (net : Network) (tbl : List String) :
    (∀ name ∈ net.pump_stations ++ net.wells
        ++ net.control_valves ++ net.valves,
      ∀ lo hi, get_x_idx tbl name = Except.ok (some lo, some hi) →
      ∀ i, lo ≤ i → i < hi →
        SConstr.mk [(i, 1)] Rel.ge 0 [] true ∈ range_constraints net tbl ∧
        SConstr.mk [(i, 1)] Rel.le 1 [] true ∈ range_constraints net tbl)
    ∧ (∀ v ∈ net.vsp,
        ∀ lo hi, get_x_idx tbl v.name = Except.ok (some lo, some hi) →
        (∀ i, lo ≤ i → i < hi →
          SConstr.mk [(i, 1)] Rel.ge v.min_flow [] true
            ∈ range_constraints net tbl ∧
          SConstr.mk [(i, 1)] Rel.le v.max_flow [] true
            ∈ range_constraints net tbl)
        ∧ (∀ f0, v.init_flow = some f0 →
            SConstr.mk [(lo, 1)] Rel.eq f0 [] true
              ∈ range_constraints net tbl)
        ∧ (v.init_flow = none →
            ∀ c ∈ vspRange tbl v, c.rel ≠ Rel.eq)) := by
  constructor
  · intro name hname lo hi hidx i h1 h2
    obtain ⟨hge, hle⟩ := boundBlock_mem tbl name 0 1 lo hi hidx i h1 h2
    simp only [List.mem_append, or_assoc] at hname
    unfold range_constraints
    rcases hname with h | h | h | h
    · exact ⟨List.mem_append_left _ (List.mem_append_left _ (List.mem_append_left _
          (List.mem_append_left _ (List.mem_flatMap.mpr ⟨name, h, hge⟩)))),
        List.mem_append_left _ (List.mem_append_left _ (List.mem_append_left _
          (List.mem_append_left _ (List.mem_flatMap.mpr ⟨name, h, hle⟩))))⟩
    · exact ⟨List.mem_append_left _ (List.mem_append_left _
          (List.mem_append_right _ (List.mem_flatMap.mpr ⟨name, h, hge⟩))),
        List.mem_append_left _ (List.mem_append_left _
          (List.mem_append_right _ (List.mem_flatMap.mpr ⟨name, h, hle⟩)))⟩
    · exact ⟨List.mem_append_left _ (List.mem_append_right _
          (List.mem_flatMap.mpr ⟨name, h, hge⟩)),
        List.mem_append_left _ (List.mem_append_right _
          (List.mem_flatMap.mpr ⟨name, h, hle⟩))⟩
    · exact ⟨List.mem_append_right _ (List.mem_flatMap.mpr ⟨name, h, hge⟩),
        List.mem_append_right _ (List.mem_flatMap.mpr ⟨name, h, hle⟩)⟩
  · intro v hv lo hi hidx
    have hmemv : ∀ c ∈ vspRange tbl v, c ∈ range_constraints net tbl := by
      intro c hc
      unfold range_constraints
      exact List.mem_append_left _ (List.mem_append_left _ (List.mem_append_left _
        (List.mem_append_right _ (List.mem_flatMap.mpr ⟨v, hv, hc⟩))))
    refine ⟨?_, ?_, ?_⟩
    · intro i h1 h2
      constructor
      · apply hmemv
        unfold vspRange
        rw [hidx]
        exact List.mem_append_left _ (List.mem_append_left _ (List.mem_map.mpr
          ⟨i, List.mem_range'.mpr ⟨i - lo, by omega, by omega⟩, rfl⟩))
      · apply hmemv
        unfold vspRange
        rw [hidx]
        exact List.mem_append_left _ (List.mem_append_right _ (List.mem_map.mpr
          ⟨i, List.mem_range'.mpr ⟨i - lo, by omega, by omega⟩, rfl⟩))
    · intro f0 hf0
      apply hmemv
      unfold vspRange
      rw [hidx, hf0]
      exact List.mem_append_right _ (List.mem_singleton.mpr rfl)
    · intro hnan c hc
      unfold vspRange at hc
      rw [hidx, hnan] at hc
      simp only [List.append_nil, List.mem_append, List.mem_map] at hc
      rcases hc with ⟨i, _, rfl⟩ | ⟨i, _, rfl⟩ <;> simp

/-- **C6** witness: the table of a 2-comb pump station followed by a VSP over
`T = 2`; the pump-station entry 2 gets both `[0, 1]` bounds, the VSP block
gets flow bounds, and its non-NaN `init_flow = 7/2` is pinned at step 0. -/
theorem C6_range_constraints_bounds_witness :
    get_x_idx ["ps", "ps", "ps", "ps", "v1", "v1"] "ps" =
      Except.ok (some 0, some 4) ∧
    get_x_idx ["ps", "ps", "ps", "ps", "v1", "v1"] "v1" =
      Except.ok (some 4, some 6) ∧
    (SConstr.mk [(2, 1)] Rel.ge 0 [] true ∈
      range_constraints (Network.mk ["ps"] [Vsp.mk "v1" 0 5 (some (7/2))]
        [] [] []) ["ps", "ps", "ps", "ps", "v1", "v1"]) ∧
    (SConstr.mk [(4, 1)] Rel.eq (7/2) [] true ∈
      range_constraints (Network.mk ["ps"] [Vsp.mk "v1" 0 5 (some (7/2))]
        [] [] []) ["ps", "ps", "ps", "ps", "v1", "v1"]) := by
  have h := C6_range_constraints_bounds
    (Network.mk ["ps"] [Vsp.mk "v1" 0 5 (some (7/2))] [] [] [])
    ["ps", "ps", "ps", "ps", "v1", "v1"]
  refine ⟨rfl, rfl, ?_, ?_⟩
  · exact (h.1 "ps" (by decide) 0 4 rfl 2 (by decide) (by decide)).1
  · exact (h.2 (Vsp.mk "v1" 0 5 (some (7/2)))
      (List.mem_singleton.mpr rfl) 4 6 rfl).2.1 (7/2) rfl

/-- numpy fancy assignment `matrix[rows, cols] = v`: pointwise updates at the
positionally-paired index lists. -/
def setVal (v : ℚ) : (Nat → Nat → ℚ) → List (Nat × Nat) → (Nat → Nat → ℚ)
  | m, [] => m
  | m, rc :: rest =>
      setVal v (fun a b => if a = rc.1 ∧ b = rc.2 then v else m a b) rest

theorem setVal_eval (v : ℚ) (m : Nat → Nat → ℚ) (ps : List (Nat × Nat))
    (a b : Nat) : setVal v m ps a b = if (a, b) ∈ ps then v else m a b := by
  induction ps generalizing m with
  | nil => simp [setVal]
  | cons rc rest ih =>
      rw [setVal, ih]
      by_cases h1 : (a, b) ∈ rest
      · simp [h1]
      · by_cases h2 : a = rc.1 ∧ b = rc.2
        · simp [h1, h2, Prod.ext_iff]
        · simp [h1, h2, Prod.ext_iff]

/-- `np.hstack([np.repeat(i, c) for i in range(T)])` of `one_comb_only`. -/
def ocRows (T c : Nat) : List Nat :=
  (List.range T).flatMap fun i => List.replicate c i

/-- `np.arange(c * T)` of `one_comb_only`. -/
def ocCols (T c : Nat) : List Nat :=
  List.range (c * T)

/-- The exclusivity selector of `one_comb_only`:
`np.zeros([T, T*c])` with `matrix[rows, cols] = 1`. -/
def one_comb_matrix (T c : Nat) : Nat → Nat → ℚ :=
  setVal 1 (fun _ _ => 0) ((ocRows T c).zip (ocCols T c))

theorem ocRows_eq (T c : Nat) (hc : 0 < c) :
    ocRows T c = (List.range (T * c)).map (· / c) := by
  induction T with
  | zero => simp [ocRows]
  | succ T ih =>
      have hsplit : ocRows (T + 1) c = ocRows T c ++ List.replicate c T := by
        rw [ocRows, List.range_succ, List.flatMap_append]
        simp [ocRows]
      rw [hsplit, ih, show (T + 1) * c = T * c + c by ring, List.range_add,
        List.map_append, List.map_map]
      congr 1
      have hmap : ∀ x ∈ List.range c,
          ((· / c) ∘ fun y => T * c + y) x = Function.const Nat T x := by
        intro x hx
        have hxc : x < c := List.mem_range.mp hx
        simp only [Function.comp, Function.const]
        rw [Nat.mul_comm T c, Nat.mul_add_div hc, Nat.div_eq_of_lt hxc]
        omega
      symm
      rw [List.map_congr_left hmap, List.map_const, List.length_range]

theorem zip_self_map (l : List Nat) (f : Nat → Nat) :
    (l.map f).zip l = l.map fun k => (f k, k) := by
  induction l with
  | nil => rfl
  | cons a l ih => simp [ih]

theorem zip_range_map (l : List Nat) (f : Nat → Nat) :
    l.zip (l.map f) = l.map fun k => (k, f k) := by
  induction l with
  | nil => rfl
  | cons a l ih => simp [ih]

theorem one_comb_pairs (T c : Nat) (hc : 0 < c) :
    (ocRows T c).zip (ocCols T c) =
      (List.range (c * T)).map fun k => (k / c, k) := by
  rw [ocRows_eq T c hc, ocCols, show T * c = c * T by ring]
  exact zip_self_map _ _

theorem one_comb_matrix_eval (T c : Nat) (hc : 0 < c) (t j : Nat) :
    one_comb_matrix T c t j = if j < c * T ∧ j / c = t then 1 else 0 := by
  rw [one_comb_matrix, setVal_eval, one_comb_pairs T c hc]
  have hiff : ((t, j) ∈ (List.range (c * T)).map fun k => (k / c, k)) ↔
      (j < c * T ∧ j / c = t) := by
    constructor
    · intro hmem
      obtain ⟨k, hk, hpair⟩ := List.mem_map.mp hmem
      rw [Prod.mk.injEq] at hpair
      obtain ⟨h1, h2⟩ := hpair
      subst h2
      exact ⟨List.mem_range.mp hk, h1⟩
    · rintro ⟨hj, hdiv⟩
      exact List.mem_map.mpr ⟨j, List.mem_range.mpr hj, by rw [hdiv]⟩
  simp only [hiff]

/-- Row `t` of the selector has ones exactly on step `t`'s sub-block
`[c*t, c*(t+1))` of the element's flattened (step-major) decision block. -/
theorem one_comb_matrix_block (T c : Nat) (hc : 0 < c) (t j : Nat)
    (ht : t < T) :
    one_comb_matrix T c t j = if c * t ≤ j ∧ j < c * (t + 1) then 1 else 0 := by
  rw [one_comb_matrix_eval T c hc t j]
  have e1 : c * (t + 1) = c * t + c := by ring
  have e2 : t * c = c * t := Nat.mul_comm t c
  have e3 : (t + 1) * c = c * t + c := by ring
  have hiff : (j < c * T ∧ j / c = t) ↔ (c * t ≤ j ∧ j < c * (t + 1)) := by
    constructor
    · rintro ⟨hj, hdiv⟩
      have hle : t ≤ j / c := Nat.le_of_eq hdiv.symm
      have h1 := (Nat.le_div_iff_mul_le hc).mp hle
      have h2 := (Nat.div_lt_iff_lt_mul hc).mp (show j / c < t + 1 by omega)
      omega
    · rintro ⟨h1, h2⟩
      have hle : t ≤ j / c := (Nat.le_div_iff_mul_le hc).mpr (by omega)
      have hlt : j / c < t + 1 := (Nat.div_lt_iff_lt_mul hc).mpr (by omega)
      have hm := Nat.mul_le_mul_left c (show t + 1 ≤ T by omega)
      omega
  simp only [hiff]

/-- `self.sim.network.comb_elements`: the elements with discrete states. -/
def comb_elements (elems : List Element) : List Element :=
  elems.filter fun e => e.combs.isSome

/-- `ARO.one_comb_only`: per comb element, `(matrix @ x <= 1).forall(z_set)`,
one scalar row per step, where `x = self.x[idx]` is the element's row-index
list of `sim.vars` and row `t`'s lhs pairs `idx[k]` with `matrix[t, k]`. -/
def one_comb_only (elems : List Element) (tbl : List String) (T : Nat) :
    List SConstr :=
  (comb_elements elems).flatMap fun station =>
    let idx := nameIndices tbl station.name
    (List.range T).map fun t =>
      SConstr.mk
        (idx.enum.map fun ki =>
          (ki.2, one_comb_matrix T station.stateCount t ki.1))
        Rel.le 1 [] true

theorem enum_range' (lo n : Nat) :
    (List.range' lo n).enum = (List.range n).map fun k => (k, lo + k) := by
  rw [List.enum_eq_zip_range, List.length_range', List.range'_eq_map_range]
  exact zip_range_map _ _

/-- **C5** (confirmed). For every discrete-state element (position `p`, comb
count `c`) and every step `t < T`, `one_comb_only` declares robustly that the
sum of the element's step-`t` discrete-state sub-block is `≤ 1`: the selector
is 0/1 with row `t` carrying ones exactly on the columns `[c*t, c*(t+1))` of
step `t`'s sub-block and zeros elsewhere (in particular everywhere outside
the `(T, T*c)` shape), the row-`t` constraint over the element's decision
block is emitted with relation `≤ 1`, robust flag set and no `z` dependence,
and its lhs evaluates to exactly the sum of the `c` step-`t` entries. -/
theorem C5_one_comb_only_exclusivity (elems : List Element) (T : Nat)
    (hnd : nodupNames elems) (hT : 0 < T)
    (hsc : ∀ e ∈ elems, 0 < e.stateCount)
    (p : Nat) (hp : p < elems.length) (c : Nat)
    (hcombs : (elems.get ⟨p, hp⟩).combs = some c) :
    (∀ t j, t < T →
      one_comb_matrix T c t j = if c * t ≤ j ∧ j < c * (t + 1) then 1 else 0)
    ∧ (∀ i j, T ≤ i ∨ c * T ≤ j → one_comb_matrix T c i j = 0)
    ∧ (∀ t, t < T →
        SConstr.mk ((List.range (c * T)).map fun k =>
            (offsetAt elems T p + k, one_comb_matrix T c t k))
          Rel.le 1 [] true ∈ one_comb_only elems (varsTable elems T) T)
    ∧ (∀ t, t < T → ∀ x : Nat → ℚ,
        lcEval ((List.range (c * T)).map fun k =>
            (offsetAt elems T p + k, one_comb_matrix T c t k)) x =
          ∑ s ∈ Finset.range c, x (offsetAt elems T p + (c * t + s))) := by
  have hc : 0 < c := by
    have := hsc _ (List.get_mem elems p hp)
    rw [Element.stateCount, hcombs] at this
    exact this
  have hscp : (elems.get ⟨p, hp⟩).stateCount = c := by
    rw [Element.stateCount, hcombs]
  refine ⟨fun t j ht => one_comb_matrix_block T c hc t j ht, ?_, ?_, ?_⟩
  · intro i j hout
    rw [one_comb_matrix_eval T c hc i j]
    rcases hout with hi | hj
    · rw [if_neg]
      rintro ⟨hjT, hdiv⟩
      have : j / c < T := (Nat.div_lt_iff_lt_mul hc).mpr
        (by rw [Nat.mul_comm T c]; omega)
      omega
    · rw [if_neg]
      rintro ⟨hjT, _⟩
      omega
  · intro t ht
    unfold one_comb_only
    apply List.mem_flatMap.mpr
    refine ⟨elems.get ⟨p, hp⟩, ?_, ?_⟩
    · exact List.mem_filter.mpr
        ⟨List.get_mem elems p hp, by rw [hcombs]; rfl⟩
    · apply List.mem_map.mpr
      refine ⟨t, List.mem_range.mpr ht, ?_⟩
      have hidx : nameIndices (varsTable elems T) (elems.get ⟨p, hp⟩).name =
          List.range' (offsetAt elems T p) (c * T) := by
        rw [nameIndices_varsTable elems T hnd p hp, Element.blockW, hscp]
      rw [hidx, enum_range', List.map_map, hscp]
      rfl
  · intro t ht x
    rw [lcEval, List.map_map]
    have hfun : ((fun pr : Nat × ℚ => pr.2 * x pr.1) ∘ fun k =>
        (offsetAt elems T p + k, one_comb_matrix T c t k)) =
        fun k => one_comb_matrix T c t k * x (offsetAt elems T p + k) := rfl
    rw [hfun]
    have hsum : ((List.range (c * T)).map fun k =>
        one_comb_matrix T c t k * x (offsetAt elems T p + k)).sum =
        ∑ k ∈ Finset.range (c * T),
          one_comb_matrix T c t k * x (offsetAt elems T p + k) := rfl
    rw [hsum]
    have hterm : ∀ k ∈ Finset.range (c * T),
        one_comb_matrix T c t k * x (offsetAt elems T p + k) =
          if c * t ≤ k ∧ k < c * (t + 1)
          then x (offsetAt elems T p + k) else 0 := by
      intro k _
      rw [one_comb_matrix_block T c hc t k ht]
      by_cases hk : c * t ≤ k ∧ k < c * (t + 1)
      · rw [if_pos hk, if_pos hk, one_mul]
      · rw [if_neg hk, if_neg hk, zero_mul]
    rw [Finset.sum_congr rfl hterm, ← Finset.sum_filter]
    have hfilter : (Finset.range (c * T)).filter
        (fun k => c * t ≤ k ∧ k < c * (t + 1)) =
        Finset.Ico (c * t) (c * (t + 1)) := by
      ext k
      simp only [Finset.mem_filter, Finset.mem_range, Finset.mem_Ico]
      have hm := Nat.mul_le_mul_left c (show t + 1 ≤ T by omega)
      constructor
      · rintro ⟨_, h1, h2⟩; exact ⟨h1, h2⟩
      · rintro ⟨h1, h2⟩; exact ⟨by omega, h1, h2⟩
    rw [hfilter, Finset.sum_Ico_eq_sum_range,
      show c * (t + 1) - c * t = c from by rw [Nat.mul_succ]; omega]

/-- **C5** witness: one pump station with 2 combs over `T = 2`; the step-1
exclusivity row is among the emitted constraints. -/
theorem C5_one_comb_only_exclusivity_witness :
    nodupNames [Element.mk "ps" (some 2) []] ∧
      SConstr.mk ((List.range (2 * 2)).map fun k =>
          (offsetAt [Element.mk "ps" (some 2) []] 2 0 + k,
            one_comb_matrix 2 2 1 k)) Rel.le 1 [] true
        ∈ one_comb_only [Element.mk "ps" (some 2) []]
            (varsTable [Element.mk "ps" (some 2) []] 2) 2 :=
  ⟨by unfold nodupNames; decide,
    (C5_one_comb_only_exclusivity [Element.mk "ps" (some 2) []] 2
      (by unfold nodupNames; decide) (by decide) (by decide) 0 (by decide) 2
      (by decide)).2.2.1 1 (by decide)⟩

/-- One column of an element's `vars` DataFrame: its label and values (the
row timestamps of the time index are carried separately). -/
structure Column where
  cname : String
  vals : List ℚ
deriving DecidableEq, Repr

/-- `df[c] = vals`: overwrite the column in place when the label exists,
otherwise append it as the last column (pandas assignment semantics). -/
def setCol (tbl : List Column) (c : String) (vals : List ℚ) : List Column :=
  if tbl.any (fun col => col.cname = c)
  then tbl.map fun col => if col.cname = c then Column.mk c vals else col
  else tbl ++ [Column.mk c vals]

/-- `df.drop(c, axis=1)`. -/
def dropCol (tbl : List Column) (c : String) : List Column :=
  tbl.filter fun col => col.cname ≠ c

/-- `df[c]` (empty on a missing label; the modeled paths only read
columns they just wrote). -/
def colVals (tbl : List Column) (c : String) : List ℚ :=
  match tbl.find? (fun col => col.cname = c) with
  | some col => col.vals
  | none => []

/-- `df.loc[mask, c] = v` on a column: masked positions are overwritten. -/
def locSet (vals : List ℚ) (mask : List Bool) (v : ℚ) : List ℚ :=
  (vals.zip mask).map fun pv => if pv.2 then v else pv.1

/-- `(vsp.vars.index > start) & (vsp.vars.index < end)` — the open window of
`vsp_changes`. -/
def maskOpen (times : List ℚ) (a b : ℚ) : List Bool :=
  times.map fun τ => decide (a < τ ∧ τ < b)

/-- `(vsp.vars.index >= start) & (vsp.vars.index <= end)` — the closed window
of `vsp_volume`. -/
def maskClosed (times : List ℚ) (a b : ℚ) : List Bool :=
  times.map fun τ => decide (a ≤ τ ∧ τ ≤ b)

/-- `ARO.not_comb_matrix`: `flow_direction * np.diag(np.ones(T))`. -/
def not_comb_matrix (T : Nat) (dir : ℚ) : Nat → Nat → ℚ :=
  fun i j => if i < T ∧ j < T ∧ i = j then dir else 0

/-- `np.diag(np.ones(T))` at the start of `vsp_changes`. -/
def diagOnes (T : Nat) : Nat → Nat → ℚ :=
  fun i j => if i < T ∧ j < T ∧ i = j then 1 else 0

/-- After `matrix[row_vals, col_vals] = -1`: `np.diag(rows, k=-1)` and
`np.diag(cols, k=-1)` pair exactly the subdiagonal positions `(i, i-1)` for
`1 ≤ i < T`. -/
def vspChangeSub (T : Nat) : Nat → Nat → ℚ :=
  fun i j => if 1 ≤ i ∧ i < T ∧ i = j + 1 then -1 else diagOnes T i j

/-- After `matrix[0, 0] = 0`: row 0 is zeroed (its only nonzero entry was the
diagonal one). -/
def vspChangeBase (T : Nat) : Nat → Nat → ℚ :=
  fun i j => if i = 0 ∧ j = 0 then 0 else vspChangeSub T i j

/-- One row of `vsp_changes.csv`: window `(start, stop)` for element `vsp`. -/
structure ChangeRecord where
  start : ℚ
  stop : ℚ
  vsp : String
deriving DecidableEq, Repr

/-- One row of `vsp_volume.csv`: window `[start, stop]`, target volume and
comparison operator for element `vsp`. -/
structure VolRecord where
  start : ℚ
  stop : ℚ
  vsp : String
  vol : ℚ
  ctype : Rel
deriving DecidableEq, Repr

/-- The body of one `vsp_changes` loop iteration on the target element's
state: `times` is `vsp.vars.index`, `tbl` is `vsp.vars`, `[lo, _)` the
element's decision block.  Writes the `aux` mask column, emits the masked
first-difference rows `(matrix @ vsp_x == 0).forall(z_set)`, and — unlike
`vsp_volume` — never drops `aux`; the returned table is the element's `vars`
after the iteration. -/
def vsp_changes_step (T : Nat) (times : List ℚ) (tbl : List Column)
    (lo : Nat) (r : ChangeRecord) : (List Column) × List SConstr :=
  let tbl1 := setCol tbl "aux" (List.replicate times.length 0)
  let mask := maskOpen times r.start r.stop
  let tbl2 := setCol tbl1 "aux" (locSet (colVals tbl1 "aux") mask 1)
  let aux := colVals tbl2 "aux"
  let cs := (List.range T).map fun t =>
    SConstr.mk ((List.range T).map fun j =>
      (lo + j, aux.getD t 0 * vspChangeBase T t j)) Rel.eq 0 [] true
  (tbl2, cs)

/-- The body of one `vsp_volume` loop iteration: writes the `aux` mask
column, emits `operators[op](matrix.sum(axis=0) @ vsp_x, volume)` robustly,
and drops `aux` again; the returned table is the element's `vars` after the
iteration. -/
def vsp_volume_step (T : Nat) (times : List ℚ) (tbl : List Column)
    (lo : Nat) (r : VolRecord) : (List Column) × SConstr :=
  let tbl1 := setCol tbl "aux" (List.replicate times.length 0)
  let mask := maskClosed times r.start r.stop
  let tbl2 := setCol tbl1 "aux" (locSet (colVals tbl1 "aux") mask 1)
  let aux := colVals tbl2 "aux"
  let c := SConstr.mk ((List.range T).map fun j =>
      (lo + j,
        ((List.range T).map fun i => aux.getD i 0 * not_comb_matrix T 1 i j).sum))
    r.ctype r.vol [] true
  (dropCol tbl2 "aux", c)

theorem colVals_setCol (tbl : List Column) (c : String) (v : List ℚ) :
    colVals (setCol tbl c v) c = v := by
  unfold setCol colVals
  by_cases h : tbl.any (fun col => col.cname = c)
  · rw [if_pos h]
    induction tbl with
    | nil => simp at h
    | cons col rest ih =>
        by_cases hcol : col.cname = c
        · simp [List.find?, hcol]
        · simp only [List.map_cons, if_neg hcol]
          rw [List.find?_cons_of_neg _ (by simpa using hcol)]
          apply ih
          simp only [List.any_cons, hcol] at h
          simpa using h
  · rw [if_neg h]
    have hnone : tbl.find? (fun col => col.cname = c) = none := by
      rw [List.find?_eq_none]
      intro col hcol
      simp only [decide_eq_true_eq]
      intro hceq
      exact h (List.any_eq_true.mpr ⟨col, hcol, by simp [hceq]⟩)
    rw [List.find?_append, hnone]
    simp [List.find?]

theorem setCol_not_mem (tbl : List Column) (c : String) (v : List ℚ)
    (h : ∀ col ∈ tbl, col.cname ≠ c) :
    setCol tbl c v = tbl ++ [Column.mk c v] := by
  unfold setCol
  rw [if_neg]
  simp only [List.any_eq_true, not_exists, not_and]
  intro col hcol
  simpa using h col hcol

theorem setCol_append_same (tbl : List Column) (c : String) (v w : List ℚ)
    (h : ∀ col ∈ tbl, col.cname ≠ c) :
    setCol (tbl ++ [Column.mk c v]) c w = tbl ++ [Column.mk c w] := by
  unfold setCol
  rw [if_pos]
  · rw [List.map_append]
    congr 1
    · conv_rhs => rw [show tbl = tbl.map id from (List.map_id tbl).symm]
      apply List.map_congr_left
      intro col hcol
      rw [if_neg (h col hcol)]
      rfl
    · simp
  · simp

theorem dropCol_append (tbl : List Column) (c : String) (v : List ℚ)
    (h : ∀ col ∈ tbl, col.cname ≠ c) :
    dropCol (tbl ++ [Column.mk c v]) c = tbl := by
  unfold dropCol
  rw [List.filter_append]
  have h1 : tbl.filter (fun col => col.cname ≠ c) = tbl := by
    rw [List.filter_eq_self]
    intro col hcol
    simpa using h col hcol
  have h2 : List.filter (fun col => col.cname ≠ c) [Column.mk c v] = [] := by
    simp
  rw [h1, h2, List.append_nil]

/-- The values of the transient `aux` column written by `vsp_changes`:
zeros, then `1` on the rows whose timestamp lies strictly inside
`(start, stop)`. -/
def changeMaskVals (times : List ℚ) (r : ChangeRecord) : List ℚ :=
  locSet (List.replicate times.length 0) (maskOpen times r.start r.stop) 1

theorem vsp_changes_step_eq (T : Nat) (times : List ℚ) (tbl : List Column)
    (lo : Nat) (r : ChangeRecord) (h : ∀ col ∈ tbl, col.cname ≠ "aux") :
    (vsp_changes_step T times tbl lo r).2 =
      (List.range T).map fun t =>
        SConstr.mk ((List.range T).map fun j =>
          (lo + j, (changeMaskVals times r).getD t 0 * vspChangeBase T t j))
          Rel.eq 0 [] true := by
  simp only [vsp_changes_step, colVals_setCol]
  rfl

theorem changeMaskVals_getD (times : List ℚ) (r : ChangeRecord) (t : Nat)
    (ht : t < times.length) :
    (changeMaskVals times r).getD t 0 =
      if r.start < times.getD t 0 ∧ times.getD t 0 < r.stop
      then (1 : ℚ) else 0 := by
  unfold changeMaskVals locSet maskOpen
  induction times generalizing t with
  | nil => simp at ht
  | cons τ rest ih =>
      match t with
      | 0 =>
          by_cases hw : r.start < τ ∧ τ < r.stop
          · simp [List.replicate_succ, List.getD, hw]
          · simp [List.replicate_succ, List.getD, hw]
      | t + 1 =>
          have ht2 : t < rest.length := by simpa using ht
          simpa [List.replicate_succ, List.getD] using ih t ht2

theorem getD_mem_of_lt {l : List ℚ} {t : Nat} (ht : t < l.length) (d : ℚ) :
    l.getD t d ∈ l := by
  induction l generalizing t with
  | nil => simp at ht
  | cons a rest ih =>
      match t with
      | 0 => simp [List.getD]
      | t + 1 => exact List.mem_cons_of_mem _ (ih (by simpa using ht))

theorem changeMaskVals_getD_zero (times : List ℚ) (r : ChangeRecord) (t : Nat)
    (hz : ∀ τ ∈ times, ¬(r.start < τ ∧ τ < r.stop)) :
    (changeMaskVals times r).getD t 0 = 0 := by
  by_cases ht : t < times.length
  · rw [changeMaskVals_getD times r t ht, if_neg]
    exact hz _ (getD_mem_of_lt ht 0)
  · apply List.getD_eq_default
    have : (changeMaskVals times r).length = times.length := by
      unfold changeMaskVals locSet maskOpen
      rw [List.length_map, List.length_zip, List.length_replicate,
        List.length_map]
      omega
    omega

theorem vspChangeBase_eval (T : Nat) (i j : Nat) :
    vspChangeBase T i j =
      if 1 ≤ i ∧ i < T ∧ j = i then (1 : ℚ)
      else if 1 ≤ i ∧ i < T ∧ i = j + 1 then -1 else 0 := by
  unfold vspChangeBase vspChangeSub diagOnes
  split_ifs <;> first | rfl | omega

/-- A masked first-difference row at step `t ≥ 1` evaluates to
`mask_t * (x[lo+t] - x[lo+t-1])`. -/
theorem vsp_changes_row_eval (T : Nat) (times : List ℚ) (lo : Nat)
    (r : ChangeRecord) (t : Nat) (x : Nat → ℚ) (ht1 : 1 ≤ t) (ht2 : t < T) :
    lcEval ((List.range T).map fun j =>
      (lo + j, (changeMaskVals times r).getD t 0 * vspChangeBase T t j)) x =
      (changeMaskVals times r).getD t 0 * (x (lo + t) - x (lo + (t - 1))) := by
  set a := (changeMaskVals times r).getD t 0 with ha
  have hsum : lcEval ((List.range T).map fun j =>
      (lo + j, a * vspChangeBase T t j)) x =
      ∑ j ∈ Finset.range T, a * vspChangeBase T t j * x (lo + j) := by
    rw [lcEval, List.map_map]
    rfl
  rw [hsum]
  have hsub : ({t - 1, t} : Finset Nat) ⊆ Finset.range T := by
    intro u hu
    simp only [Finset.mem_insert, Finset.mem_singleton] at hu
    rcases hu with rfl | rfl <;> simp [Finset.mem_range] <;> omega
  rw [← Finset.sum_subset hsub]
  · have hne : t - 1 ∉ ({t} : Finset Nat) := by
      simp only [Finset.mem_singleton]
      omega
    rw [Finset.sum_insert hne, Finset.sum_singleton]
    rw [vspChangeBase_eval T t (t - 1), vspChangeBase_eval T t t]
    rw [if_neg (by omega), if_pos (by omega), if_pos (by omega)]
    ring
  · intro u hu hnotin
    simp only [Finset.mem_insert, Finset.mem_singleton, not_or] at hnotin
    rw [vspChangeBase_eval T t u, if_neg (by omega), if_neg (by omega)]
    ring

/-- Row 0 of the no-change constraint block is identically zero. -/
theorem vsp_changes_row0_eval (T : Nat) (times : List ℚ) (lo : Nat)
    (r : ChangeRecord) (x : Nat → ℚ) :
    lcEval ((List.range T).map fun j =>
      (lo + j, (changeMaskVals times r).getD 0 0 * vspChangeBase T 0 j)) x =
      0 := by
  rw [lcEval, List.map_map]
  apply List.sum_eq_zero
  intro q hq
  obtain ⟨j, _, rfl⟩ := List.mem_map.mp hq
  simp only [Function.comp]
  rw [vspChangeBase_eval T 0 j, if_neg (by omega), if_neg (by omega)]
  ring

/-- **C7** (confirmed). For every no-change schedule record: the built matrix
is the first-difference matrix (1 on the diagonal, −1 on the subdiagonal,
row 0 zeroed); each row is multiplied by the window mask, which is `1`
exactly on timestamps strictly inside `(start, stop)`; each of the `T` rows
is equated to 0 robustly; any decisions at consecutive steps whose second
step is strictly inside the open window are forced equal; and when no
timestamp falls in the open window the emitted constraints are all trivially
satisfied by every `x` and `z` (well-formed, no error). -/
theorem C7_vsp_changes_no_change (T : Nat) (times : List ℚ)
    (tbl : List Column) (lo : Nat) (r : ChangeRecord)
    (h : ∀ col ∈ tbl, col.cname ≠ "aux") (hlen : times.length = T) :
    (∀ i j, vspChangeBase T i j =
      if 1 ≤ i ∧ i < T ∧ j = i then (1 : ℚ)
      else if 1 ≤ i ∧ i < T ∧ i = j + 1 then -1 else 0)
    ∧ (∀ t, t < T →
        SConstr.mk ((List.range T).map fun j =>
          (lo + j, (changeMaskVals times r).getD t 0 * vspChangeBase T t j))
          Rel.eq 0 [] true ∈ (vsp_changes_step T times tbl lo r).2)
    ∧ (∀ x z : Nat → ℚ,
        (∀ cst ∈ (vsp_changes_step T times tbl lo r).2, cst.sat x z) →
        ∀ t, 1 ≤ t → t < T →
        r.start < times.getD t 0 → times.getD t 0 < r.stop →
        x (lo + t) = x (lo + (t - 1)))
    ∧ ((∀ τ ∈ times, ¬(r.start < τ ∧ τ < r.stop)) →
        ∀ cst ∈ (vsp_changes_step T times tbl lo r).2,
        ∀ x z : Nat → ℚ, cst.sat x z) := by
  refine ⟨vspChangeBase_eval T, ?_, ?_, ?_⟩
  · intro t ht
    rw [vsp_changes_step_eq T times tbl lo r h]
    exact List.mem_map.mpr ⟨t, List.mem_range.mpr ht, rfl⟩
  · intro x z hsat t ht1 ht2 hw1 hw2
    have hmem : SConstr.mk ((List.range T).map fun j =>
        (lo + j, (changeMaskVals times r).getD t 0 * vspChangeBase T t j))
        Rel.eq 0 [] true ∈ (vsp_changes_step T times tbl lo r).2 := by
      rw [vsp_changes_step_eq T times tbl lo r h]
      exact List.mem_map.mpr ⟨t, List.mem_range.mpr ht2, rfl⟩
    have hs := hsat _ hmem
    unfold SConstr.sat Rel.holds at hs
    have hval2 := vsp_changes_row_eval T times lo r t x ht1 ht2
    rw [hval2] at hs
    simp only [lcEval, List.map_nil, List.sum_nil, add_zero] at hs
    have hmask : (changeMaskVals times r).getD t 0 = 1 := by
      rw [changeMaskVals_getD times r t (by omega), if_pos ⟨hw1, hw2⟩]
    rw [hmask, one_mul] at hs
    linarith
  · intro hz cst hcst x z
    rw [vsp_changes_step_eq T times tbl lo r h] at hcst
    obtain ⟨t, _, rfl⟩ := List.mem_map.mp hcst
    unfold SConstr.sat Rel.holds
    have hlhs : lcEval ((List.range T).map fun j =>
        (lo + j, (changeMaskVals times r).getD t 0 * vspChangeBase T t j))
        x = 0 := by
      rw [lcEval, List.map_map]
      apply List.sum_eq_zero
      intro q hq
      obtain ⟨j, _, rfl⟩ := List.mem_map.mp hq
      simp only [Function.comp]
      rw [changeMaskVals_getD_zero times r t hz, zero_mul, zero_mul]
    rw [hlhs]
    simp [lcEval]

/-- **C7** witness: `T = 3`, timestamps `[0, 1, 2]`, window `(0, 2)`; the
solution forced by the constraints has `x (lo+1) = x lo`, checked by applying
the theorem to a concrete satisfying valuation. -/
theorem C7_vsp_changes_no_change_witness :
    (∀ col ∈ [Column.mk "flow" [1, 1, 1]], col.cname ≠ "aux") ∧
      ([(0 : ℚ), 1, 2].length = 3) ∧
      (∀ cst ∈ (vsp_changes_step 3 [(0 : ℚ), 1, 2]
          [Column.mk "flow" [1, 1, 1]] 5 (ChangeRecord.mk 0 2 "v")).2,
        cst.sat (fun _ => (4 : ℚ)) (fun _ => 0)) ∧
      (fun _ => (4 : ℚ)) (5 + 1) = (fun _ => (4 : ℚ)) (5 + (1 - 1)) := by
  have h1 : ∀ col ∈ [Column.mk "flow" [(1 : ℚ), 1, 1]], col.cname ≠ "aux" := by
    intro col hcol
    simp only [List.mem_singleton] at hcol
    rw [hcol]
    decide
  have hsat : ∀ cst ∈ (vsp_changes_step 3 [(0 : ℚ), 1, 2]
      [Column.mk "flow" [1, 1, 1]] 5 (ChangeRecord.mk 0 2 "v")).2,
      cst.sat (fun _ => (4 : ℚ)) (fun _ => 0) := by
    rw [vsp_changes_step_eq 3 [(0 : ℚ), 1, 2] [Column.mk "flow" [1, 1, 1]] 5
      (ChangeRecord.mk 0 2 "v") h1]
    intro cst hcst
    obtain ⟨t, htr, rfl⟩ := List.mem_map.mp hcst
    unfold SConstr.sat Rel.holds
    match t with
    | 0 =>
        rw [vsp_changes_row0_eval 3 [(0 : ℚ), 1, 2] 5
          (ChangeRecord.mk 0 2 "v") (fun _ => (4 : ℚ))]
        simp [lcEval]
    | t + 1 =>
        rw [vsp_changes_row_eval 3 [(0 : ℚ), 1, 2] 5
          (ChangeRecord.mk 0 2 "v") (t + 1) (fun _ => (4 : ℚ)) (by omega)
          (List.mem_range.mp htr)]
        simp [lcEval]
  exact ⟨h1, rfl, hsat,
    (C7_vsp_changes_no_change 3 [(0 : ℚ), 1, 2] [Column.mk "flow" [1, 1, 1]]
      5 (ChangeRecord.mk 0 2 "v") h1 rfl).2.2.1 (fun _ => (4 : ℚ))
      (fun _ => 0) hsat 1 (by omega) (by omega) (by norm_num [List.getD])
      (by norm_num [List.getD])⟩

/-- **C8** (corrected). The claim says both scheduling-window builders leave
the target element's `vars` table unchanged (transient `aux` removed, no
other column modified).  True for `vsp_volume`, which drops `aux`; false for
`vsp_changes`, which never drops it: after `vsp_changes` the `aux` mask
column is still appended to the element's table (no pre-existing column is
modified).  Amended claim: `vsp_volume` restores the table exactly; for
`vsp_changes` the table keeps every original column unmodified but gains the
leftover `aux` column holding the window mask. -/
theorem C8_schedule_builders_frame (T : Nat) (times : List ℚ)
    (tbl : List Column) (lo : Nat) (rv : VolRecord) (rc : ChangeRecord)
    (h : ∀ col ∈ tbl, col.cname ≠ "aux") :
    (vsp_volume_step T times tbl lo rv).1 = tbl ∧
    (vsp_changes_step T times tbl lo rc).1 =
      tbl ++ [Column.mk "aux"
        (locSet (List.replicate times.length 0)
          (maskOpen times rc.start rc.stop) 1)] := by
  constructor
  · unfold vsp_volume_step
    simp only [colVals_setCol]
    rw [setCol_not_mem tbl _ _ h, setCol_append_same tbl _ _ _ h,
      dropCol_append tbl _ _ h]
  · unfold vsp_changes_step
    simp only [colVals_setCol]
    rw [setCol_not_mem tbl _ _ h, setCol_append_same tbl _ _ _ h]

/-- **C8** witness: a one-column table; `vsp_volume` hands it back unchanged,
`vsp_changes` hands it back with the `aux` mask column appended. -/
theorem C8_schedule_builders_frame_witness :
    (∀ col ∈ [Column.mk "flow" [(1 : ℚ)]], col.cname ≠ "aux") ∧
    (vsp_volume_step 1 [(0 : ℚ)] [Column.mk "flow" [1]] 0
        (VolRecord.mk 0 1 "v" 5 Rel.le)).1 = [Column.mk "flow" [1]] ∧
    (vsp_changes_step 1 [(0 : ℚ)] [Column.mk "flow" [1]] 0
        (ChangeRecord.mk 0 1 "v")).1 =
      [Column.mk "flow" [1]] ++ [Column.mk "aux"
        (locSet (List.replicate [(0 : ℚ)].length 0)
          (maskOpen [(0 : ℚ)] 0 1) 1)] := by
  have h1 : ∀ col ∈ [Column.mk "flow" [(1 : ℚ)]], col.cname ≠ "aux" := by
    intro col hcol
    simp only [List.mem_singleton] at hcol
    rw [hcol]
    decide
  exact ⟨h1,
    (C8_schedule_builders_frame 1 [(0 : ℚ)] [Column.mk "flow" [1]] 0
      (VolRecord.mk 0 1 "v" 5 Rel.le) (ChangeRecord.mk 0 1 "v") h1).1,
    (C8_schedule_builders_frame 1 [(0 : ℚ)] [Column.mk "flow" [1]] 0
      (VolRecord.mk 0 1 "v" 5 Rel.le) (ChangeRecord.mk 0 1 "v") h1).2⟩

/-- **C8** counterexample to the claim as stated: on a concrete one-column
table, after `vsp_changes` processes a record the element's table is *not*
unchanged — the auxiliary `aux` column is still there. -/
theorem C8_counterexample :
    (vsp_changes_step 1 [(0 : ℚ)] [Column.mk "flow" [1]] 0
        (ChangeRecord.mk 0 1 "v")).1 =
      [Column.mk "flow" [1], Column.mk "aux" [0]] ∧
    (vsp_changes_step 1 [(0 : ℚ)] [Column.mk "flow" [1]] 0
        (ChangeRecord.mk 0 1 "v")).1 ≠ [Column.mk "flow" [1]] := by
  constructor
  · rfl
  · intro hcontra
    rw [show (vsp_changes_step 1 [(0 : ℚ)] [Column.mk "flow" [1]] 0
        (ChangeRecord.mk 0 1 "v")).1 =
      [Column.mk "flow" [1], Column.mk "aux" [0]] from rfl] at hcontra
    exact absurd (congrArg List.length hcontra) (by simp)

instance : Inhabited Element := ⟨⟨"", none, []⟩⟩

/-- `Series.cumsum` with running accumulator. -/
def cumsumFrom (acc : ℚ) : List ℚ → List ℚ
  | [] => []
  | a :: rest => (acc + a) :: cumsumFrom (acc + a) rest

/-- `tank.vars['demand'].cumsum()`. -/
def cumsum (l : List ℚ) : List ℚ :=
  cumsumFrom 0 l

/-- A tank as read by `mass_balance`: demand series, volume bounds
(`max_vol` is a scalar — a length-`T` array would not broadcast into the
`(T, 1)` slice assignment), and the inflow/outflow contributor name lists. -/
structure Tank where
  name : String
  demand : List ℚ
  min_vol : List ℚ
  max_vol : ℚ
  final_vol : ℚ
  initial_vol : ℚ
  inflows : List String
  pumps_outflows : List String
  vsp_outflows : List String
  v_outflows : List String
  cv_outflows : List String
deriving DecidableEq, Repr

/-- `np.hstack([np.repeat(i - 1, c * i) for i in range(1, T + 1)])` of
`cumulative_comb_matrix`. -/
def ccRows (T c : Nat) : List Nat :=
  (List.range' 1 T).flatMap fun i => List.replicate (c * i) (i - 1)

/-- `np.hstack([np.arange(c * (t + 1)) for t in range(T)])` of
`cumulative_comb_matrix`. -/
def ccCols (T c : Nat) : List Nat :=
  (List.range T).flatMap fun t => List.range (c * (t + 1))

/-- `cumulative_comb_matrix` before the flow-parameter scaling: zeros of
shape `(T, T*c)` with `matrix[rows, cols] = flow_direction`. -/
def cc_base (T c : Nat) (dir : ℚ) : Nat → Nat → ℚ :=
  setVal dir (fun _ _ => 0) ((ccRows T c).zip (ccCols T c))

/-- `ARO.cumulative_comb_matrix` with `param='flow'`: the base scaled
columnwise by `element.vars['flow'].to_numpy()` (length `c*T`, broadcast
over rows). -/
def cumulative_comb_matrix (T c : Nat) (dir : ℚ) (flow : List ℚ) :
    Nat → Nat → ℚ :=
  fun i j => cc_base T c dir i j * flow.getD j 0

/-- `ARO.cumulative_not_comb_matrix`: zeros `(T, T)` with the lower triangle
(`np.tril_indices(T)`: all `(i, j)` with `j ≤ i`) set to the direction. -/
def cumulative_not_comb_matrix (T : Nat) (dir : ℚ) : Nat → Nat → ℚ :=
  fun i j => if i < T ∧ j < T ∧ j ≤ i then dir else 0

/-- `ARO.get_cumulative_flow_matrix`: comb elements get the flow-scaled
cumulative block matrix, continuous elements the plain lower-triangular
one. -/
def get_cumulative_flow_matrix (e : Element) (T : Nat) (dir : ℚ) :
    Nat → Nat → ℚ :=
  match e.combs with
  | some c => cumulative_comb_matrix T c dir e.flow
  | none => cumulative_not_comb_matrix T dir

/-- The classification `if element in tank.inflows … elif element in
tank.pumps_outflows + tank.vsp_outflows + tank.v_outflows +
tank.cv_outflows … else continue` (`flow_direction` of the written block, or
`none` for no block). -/
def tankDir (tank : Tank) (e : Element) : Option ℚ :=
  if e.name ∈ tank.inflows then some 1
  else if e.name ∈ tank.pumps_outflows ++ tank.vsp_outflows
      ++ tank.v_outflows ++ tank.cv_outflows then some (-1)
  else none

/-- Row `t` of one tank's block of the stacked `lhs`: the element loop
writes each element's matrix into its disjoint column range
`[xmin_idx, xmax_idx)` (and those ranges tile the columns in element order),
so the row is the concatenation of the per-element block rows; elements that
are neither inflow nor outflow keep their zero initialization. -/
def mb_row (elems : List Element) (T : Nat) (tank : Tank) (t : Nat) :
    List ℚ :=
  elems.flatMap fun e =>
    (List.range (e.blockW T)).map fun w =>
      match tankDir tank e with
      | some dir => get_cumulative_flow_matrix e T dir t w
      | none => 0

/-- The dense coefficient pairs of a row block whose first column is `b`. -/
def rowPairsFrom (b : Nat) : List ℚ → List (Nat × ℚ)
  | [] => []
  | q :: rest => (b, q) :: rowPairsFrom (b + 1) rest

/-- `tank.vars['demand'].cumsum()` at step `t`. -/
def cumdem (tank : Tank) (t : Nat) : ℚ :=
  (cumsum tank.demand).getD t 0

/-- `np.append(tank.min_vol[1:], tank.final_vol)` at step `t`: the code
drops `min_vol[0]` and shifts, so step `t` is bounded by `min_vol[t+1]`
for `t < T - 1` and by `final_vol` at the terminal step. -/
def rhs_min_code (tank : Tank) (t : Nat) : ℚ :=
  ((tank.min_vol.drop 1) ++ [tank.final_vol]).getD t 0

/-- The claim's (spec-side) minimum bound: `min_vol[t]` at every
non-terminal step `t`, `final_vol` at the terminal step.  Stated from the
claim's words, to be compared with `rhs_min_code`. -/
def rhs_min_spec (tank : Tank) (T t : Nat) : ℚ :=
  if t = T - 1 then tank.final_vol else tank.min_vol.getD t 0

/-- `ARO.mass_balance`: stacks all tanks' row blocks (row `r = k*T + t` for
tank `k`, step `t`) and declares
`lhs @ x <= np.squeeze(rhs_max + dem - lhs_init)` and
`lhs @ x >= np.squeeze(rhs_min + dem - lhs_init)`, both `.forall(z_set)`.
With an `affine_map` the demand offset becomes
`(1 + lou * z.reshape(-1)) * np.squeeze(dem)` elementwise — row `r` pairs
with flattened-`z` index `r` — contributing the constant `dem_r` plus the
single rhs `z` coefficient `(r, lou * dem_r)`; the `affine_map @ z` term is
commented out in the source and never added, so the parameter's value is
unused.  `if ntanks == 0: return` emits nothing. -/
def mass_balance (elems : List Element) (T : Nat) (lou : ℚ)
    (tanks : List Tank) (affine_map : Option (List (List ℚ))) :
    List SConstr :=
  if tanks.length = 0 then []
  else
    match affine_map with
    | none =>
        (tanks.enum.flatMap fun ktk =>
          (List.range T).map fun t =>
            SConstr.mk (rowPairsFrom 0 (mb_row elems T ktk.2 t)) Rel.le
              (ktk.2.max_vol + cumdem ktk.2 t - ktk.2.initial_vol) [] true)
        ++ (tanks.enum.flatMap fun ktk =>
          (List.range T).map fun t =>
            SConstr.mk (rowPairsFrom 0 (mb_row elems T ktk.2 t)) Rel.ge
              (rhs_min_code ktk.2 t + cumdem ktk.2 t - ktk.2.initial_vol)
              [] true)
    | some _ =>
        (tanks.enum.flatMap fun ktk =>
          (List.range T).map fun t =>
            SConstr.mk (rowPairsFrom 0 (mb_row elems T ktk.2 t)) Rel.le
              (ktk.2.max_vol + cumdem ktk.2 t - ktk.2.initial_vol)
              [(ktk.1 * T + t, lou * cumdem ktk.2 t)] true)
        ++ (tanks.enum.flatMap fun ktk =>
          (List.range T).map fun t =>
            SConstr.mk (rowPairsFrom 0 (mb_row elems T ktk.2 t)) Rel.ge
              (rhs_min_code ktk.2 t + cumdem ktk.2 t - ktk.2.initial_vol)
              [(ktk.1 * T + t, lou * cumdem ktk.2 t)] true)

/-- The `'demand'` entry of `self.udata`: the uncertainty-affected element
names and the affine sensitivity map `delta`. -/
structure DemandUncertainty where
  elements : List String
  delta : List (List ℚ)
deriving DecidableEq, Repr

/-- `ARO.build_mass_balance`: when demand uncertainty is configured, the
tanks listed in it are constrained through the uncertain variant
(`affine_map = delta`) and all remaining tanks through the deterministic
variant; otherwise all tanks are deterministic. -/
def build_mass_balance (elems : List Element) (T : Nat) (lou : ℚ)
    (tanks : List Tank) (udem : Option DemandUncertainty) : List SConstr :=
  match udem with
  | some u =>
      mass_balance elems T lou
        (tanks.filter fun tk => tk.name ∈ u.elements) (some u.delta)
      ++ mass_balance elems T lou
        (tanks.filter fun tk => ¬(tk.name ∈ u.elements)) none
  | none => mass_balance elems T lou tanks none

/-- The per-state flow weight used by the cumulative matrices: the
`vars['flow']` parameter for comb elements, `1` for continuous ones. -/
def stateFlow (e : Element) (j : Nat) : ℚ :=
  match e.combs with
  | some _ => e.flow.getD j 0
  | none => 1

/-- Spec-side reading of one tank row (§4.4 of the spec): cumulative net
inflow through step `t` — inflow contributors count positive and outflow
contributors negative, each summing its decisions over all steps `u ≤ t`
and states `s`, weighted by the per-state flow parameter.  Stated from the
spec's words, to be compared with the row the source builds. -/
def spec_net_cumflow (elems : List Element) (T : Nat) (tank : Tank)
    (t : Nat) (x : Nat → ℚ) : ℚ :=
  ∑ p ∈ Finset.range elems.length,
    (match tankDir tank (elems.getD p default) with
     | some dir => dir
     | none => 0) *
    ∑ u ∈ Finset.range (t + 1),
      ∑ s ∈ Finset.range (elems.getD p default).stateCount,
        stateFlow (elems.getD p default)
            (u * (elems.getD p default).stateCount + s) *
          x (offsetAt elems T p +
            (u * (elems.getD p default).stateCount + s))

theorem zip_replicate_range' (a s n : Nat) :
    (List.replicate n a).zip (List.range' s n) =
      (List.range' s n).map fun j => (a, j) := by
  induction n generalizing s with
  | zero => rfl
  | succ n ih => simp [List.replicate_succ, List.range'_succ, ih]

theorem ccRows_succ (T c : Nat) :
    ccRows (T + 1) c = ccRows T c ++ List.replicate (c * (T + 1)) T := by
  unfold ccRows
  have hr : List.range' 1 (T + 1) = List.range' 1 T ++ [1 + T] := by
    have := List.range'_append 1 T 1 1
    simp only [Nat.one_mul] at this
    rw [show T + 1 = 1 + T by omega, ← this]
    rfl
  rw [hr, List.flatMap_append]
  simp [show 1 + T - 1 = T by omega, show 1 + T = T + 1 by omega]

theorem ccCols_succ (T c : Nat) :
    ccCols (T + 1) c = ccCols T c ++ List.range (c * (T + 1)) := by
  unfold ccCols
  rw [List.range_succ, List.flatMap_append]
  simp

theorem cc_length_eq (T c : Nat) :
    (ccRows T c).length = (ccCols T c).length := by
  induction T with
  | zero => rfl
  | succ T ih =>
      rw [ccRows_succ, ccCols_succ, List.length_append, List.length_append,
        ih, List.length_replicate, List.length_range]

theorem cc_pairs_mem (T c : Nat) (i j : Nat) :
    ((i, j) ∈ (ccRows T c).zip (ccCols T c)) ↔ (i < T ∧ j < c * (i + 1)) := by
  induction T with
  | zero => simp [ccRows, ccCols]
  | succ T ih =>
      rw [ccRows_succ, ccCols_succ, List.zip_append (cc_length_eq T c),
        List.mem_append, ih]
      have htail : ((i, j) ∈ (List.replicate (c * (T + 1)) T).zip
          (List.range (c * (T + 1)))) ↔ (i = T ∧ j < c * (T + 1)) := by
        rw [List.range_eq_range', zip_replicate_range', List.mem_map]
        constructor
        · rintro ⟨k, hk, hpair⟩
          rw [Prod.mk.injEq] at hpair
          obtain ⟨h1, h2⟩ := hpair
          subst h2
          exact ⟨h1.symm, by
            obtain ⟨q, hq, rfl⟩ := List.mem_range'.mp hk
            omega⟩
        · rintro ⟨rfl, hj⟩
          exact ⟨j, List.mem_range'.mpr ⟨j, hj, by omega⟩, rfl⟩
      rw [htail]
      constructor
      · rintro (⟨h1, h2⟩ | ⟨rfl, h2⟩)
        · exact ⟨by omega, h2⟩
        · exact ⟨by omega, h2⟩
      · rintro ⟨h1, h2⟩
        rcases Nat.lt_or_ge i T with hlt | hge
        · exact Or.inl ⟨hlt, h2⟩
        · have : i = T := by omega
          subst this
          exact Or.inr ⟨rfl, h2⟩

theorem cc_base_eval (T c : Nat) (dir : ℚ) (i j : Nat) :
    cc_base T c dir i j = if i < T ∧ j < c * (i + 1) then dir else 0 := by
  rw [cc_base, setVal_eval]
  simp only [cc_pairs_mem]

theorem lcEval_cons (p : Nat × ℚ) (rest : List (Nat × ℚ)) (x : Nat → ℚ) :
    lcEval (p :: rest) x = p.2 * x p.1 + lcEval rest x := by
  simp [lcEval]

theorem lcEval_append (l1 l2 : List (Nat × ℚ)) (x : Nat → ℚ) :
    lcEval (l1 ++ l2) x = lcEval l1 x + lcEval l2 x := by
  simp [lcEval]

theorem rowPairsFrom_append (a b : List ℚ) (s : Nat) :
    rowPairsFrom s (a ++ b) =
      rowPairsFrom s a ++ rowPairsFrom (s + a.length) b := by
  induction a generalizing s with
  | nil => simp [rowPairsFrom]
  | cons q rest ih =>
      rw [List.cons_append, rowPairsFrom, rowPairsFrom, ih (s + 1),
        List.length_cons, List.cons_append,
        show s + 1 + rest.length = s + (rest.length + 1) by omega]

theorem lcEval_rowPairsFrom (l : List ℚ) (b : Nat) (x : Nat → ℚ) :
    lcEval (rowPairsFrom b l) x =
      ∑ w ∈ Finset.range l.length, l.getD w 0 * x (b + w) := by
  induction l generalizing b with
  | nil => simp [rowPairsFrom, lcEval]
  | cons q rest ih =>
      rw [rowPairsFrom, lcEval_cons, ih (b + 1), List.length_cons,
        Finset.sum_range_succ']
      simp only [List.getD_cons_succ, List.getD_cons_zero, Nat.add_zero]
      rw [add_comm]
      congr 1
      apply Finset.sum_congr rfl
      intro w _
      congr 2
      omega

theorem map_range'_getD (s n : Nat) (f : Nat → ℚ) (w : Nat) (d : ℚ) :
    ((List.range' s n).map f).getD w d = if w < n then f (s + w) else d := by
  induction n generalizing s w with
  | zero => simp [List.getD]
  | succ n ih =>
      rw [List.range'_succ, List.map_cons]
      match w with
      | 0 => simp
      | w + 1 =>
          rw [List.getD_cons_succ, ih (s + 1) w]
          by_cases hw : w < n
          · rw [if_pos hw, if_pos (by omega)]
            congr 1
            omega
          · rw [if_neg hw, if_neg (by omega)]

theorem map_range_getD (n : Nat) (f : Nat → ℚ) (w : Nat) (d : ℚ) :
    ((List.range n).map f).getD w d = if w < n then f w else d := by
  rw [List.range_eq_range', map_range'_getD]
  simp

theorem sum_block_reindex (c m : Nat) (g : Nat → ℚ) :
    ∑ w ∈ Finset.range (c * m), g w =
      ∑ u ∈ Finset.range m, ∑ s ∈ Finset.range c, g (u * c + s) := by
  induction m with
  | zero => simp
  | succ m ih =>
      rw [show c * (m + 1) = c * m + c by ring, Finset.sum_range_add, ih,
        Finset.sum_range_succ]
      congr 1
      apply Finset.sum_congr rfl
      intro s _
      congr 1
      ring

/-- One element's block of a tank row evaluates to its signed cumulative
flow contribution through step `t`. -/
theorem mb_block_eval (e : Element) (T : Nat) (tank : Tank) (t : Nat)
    (b : Nat) (x : Nat → ℚ) (ht : t < T) :
    lcEval (rowPairsFrom b ((List.range (e.blockW T)).map fun w =>
      match tankDir tank e with
      | some dir => get_cumulative_flow_matrix e T dir t w
      | none => 0)) x =
    (match tankDir tank e with
     | some dir => dir
     | none => 0) *
      ∑ u ∈ Finset.range (t + 1), ∑ s ∈ Finset.range e.stateCount,
        stateFlow e (u * e.stateCount + s) *
          x (b + (u * e.stateCount + s)) := by
  rw [lcEval_rowPairsFrom, List.length_map, List.length_range]
  have hcong : ∀ w ∈ Finset.range (e.blockW T),
      ((List.range (e.blockW T)).map fun w =>
        match tankDir tank e with
        | some dir => get_cumulative_flow_matrix e T dir t w
        | none => 0).getD w 0 * x (b + w) =
      (match tankDir tank e with
       | some dir => get_cumulative_flow_matrix e T dir t w
       | none => 0) * x (b + w) := by
    intro w hw
    rw [map_range_getD, if_pos (Finset.mem_range.mp hw)]
  rw [Finset.sum_congr rfl hcong]
  cases htd : tankDir tank e with
  | none => simp
  | some dir =>
      cases hcombs : e.combs with
      | none =>
          have hsc_eq : e.stateCount = 1 := by
            rw [Element.stateCount, hcombs]
          have hbw : e.blockW T = T := by
            rw [Element.blockW, hsc_eq, Nat.one_mul]
          have hflow : ∀ j, stateFlow e j = 1 := by
            intro j
            rw [stateFlow, hcombs]
          simp only [get_cumulative_flow_matrix, hcombs, hbw, hsc_eq, hflow,
            one_mul]
          have hsub : Finset.range (t + 1) ⊆ Finset.range T := by
            intro u hu
            rw [Finset.mem_range] at hu ⊢
            omega
          rw [← Finset.sum_subset hsub]
          · rw [Finset.mul_sum]
            apply Finset.sum_congr rfl
            intro u hu
            rw [Finset.mem_range] at hu
            rw [Finset.sum_range_one]
            rw [cumulative_not_comb_matrix]
            rw [if_pos ⟨ht, by omega, by omega⟩]
            rw [Nat.mul_one, Nat.add_zero]
          · intro u hu hnotin
            rw [Finset.mem_range] at hu
            rw [Finset.mem_range] at hnotin
            rw [cumulative_not_comb_matrix, if_neg (by omega), zero_mul]
      | some c =>
          have hsc_eq : e.stateCount = c := by
            rw [Element.stateCount, hcombs]
          have hbw : e.blockW T = c * T := by
            rw [Element.blockW, hsc_eq]
          have hflow : ∀ j, stateFlow e j = e.flow.getD j 0 := by
            intro j
            rw [stateFlow, hcombs]
          simp only [get_cumulative_flow_matrix, hcombs, hbw, hsc_eq, hflow]
          have hsub : Finset.range (c * (t + 1)) ⊆ Finset.range (c * T) := by
            intro w hw
            rw [Finset.mem_range] at hw ⊢
            have := Nat.mul_le_mul_left c (show t + 1 ≤ T by omega)
            omega
          rw [← Finset.sum_subset hsub]
          · rw [sum_block_reindex c (t + 1) fun w =>
              cumulative_comb_matrix T c dir e.flow t w * x (b + w)]
            rw [Finset.mul_sum]
            apply Finset.sum_congr rfl
            intro u hu
            rw [Finset.mem_range] at hu
            rw [Finset.mul_sum]
            apply Finset.sum_congr rfl
            intro s hs
            rw [Finset.mem_range] at hs
            rw [cumulative_comb_matrix, cc_base_eval]
            have hin : u * c + s < c * (t + 1) := by
              have h1 : u + 1 ≤ t + 1 := by omega
              have h2 : c * (u + 1) ≤ c * (t + 1) := Nat.mul_le_mul_left c h1
              have h3 : c * (u + 1) = c * u + c := by ring
              have h4 : u * c = c * u := Nat.mul_comm u c
              omega
            rw [if_pos ⟨ht, hin⟩]
            ring
          · intro w hw hnotin
            rw [Finset.mem_range] at hw
            rw [Finset.mem_range] at hnotin
            rw [cumulative_comb_matrix, cc_base_eval, if_neg (by omega),
              zero_mul, zero_mul]

theorem offsetAt_cons_succ (e : Element) (elems : List Element) (T p : Nat) :
    offsetAt (e :: elems) T (p + 1) = e.blockW T + offsetAt elems T p := by
  simp [offsetAt, List.take_succ_cons]

/-- A full tank row (blocks laid out from base column `b`) evaluates to the
signed sum of the per-element cumulative contributions. -/
theorem mb_row_eval_gen (elems : List Element) (T : Nat) (tank : Tank)
    (t : Nat) (x : Nat → ℚ) (ht : t < T) (b : Nat) :
    lcEval (rowPairsFrom b (mb_row elems T tank t)) x =
      ∑ p ∈ Finset.range elems.length,
        (match tankDir tank (elems.getD p default) with
         | some dir => dir
         | none => 0) *
        ∑ u ∈ Finset.range (t + 1),
          ∑ s ∈ Finset.range (elems.getD p default).stateCount,
            stateFlow (elems.getD p default)
                (u * (elems.getD p default).stateCount + s) *
              x (b + offsetAt elems T p +
                (u * (elems.getD p default).stateCount + s)) := by
  induction elems generalizing b with
  | nil => simp [mb_row, rowPairsFrom, lcEval]
  | cons e elems ih =>
      rw [show mb_row (e :: elems) T tank t =
          ((List.range (e.blockW T)).map fun w =>
            match tankDir tank e with
            | some dir => get_cumulative_flow_matrix e T dir t w
            | none => 0) ++ mb_row elems T tank t from rfl]
      rw [rowPairsFrom_append, lcEval_append, List.length_map,
        List.length_range]
      rw [mb_block_eval e T tank t b x ht, ih (b + e.blockW T)]
      rw [List.length_cons]
      conv_rhs => rw [Finset.sum_range_succ']
      rw [add_comm]
      congr 1
      · apply Finset.sum_congr rfl
        intro p _
        simp only [List.getD_cons_succ]
        congr 1
        apply Finset.sum_congr rfl
        intro u _
        apply Finset.sum_congr rfl
        intro s _
        congr 2
        rw [offsetAt_cons_succ]
        omega

/-- The row built by `mass_balance` computes exactly the spec's cumulative
net inflow. -/
theorem mb_row_eval (elems : List Element) (T : Nat) (tank : Tank)
    (t : Nat) (x : Nat → ℚ) (ht : t < T) :
    lcEval (rowPairsFrom 0 (mb_row elems T tank t)) x =
      spec_net_cumflow elems T tank t x := by
  rw [mb_row_eval_gen elems T tank t x ht 0, spec_net_cumflow]
  apply Finset.sum_congr rfl
  intro p _
  congr 1
  apply Finset.sum_congr rfl
  intro u _
  apply Finset.sum_congr rfl
  intro s _
  congr 2
  omega

theorem getD_append_lt (l1 l2 : List ℚ) (n : Nat) (d : ℚ)
    (h : n < l1.length) : (l1 ++ l2).getD n d = l1.getD n d := by
  induction l1 generalizing n with
  | nil => simp at h
  | cons a l ih =>
      match n with
      | 0 => simp
      | n + 1 =>
          rw [List.cons_append, List.getD_cons_succ, List.getD_cons_succ]
          exact ih n (by simpa using h)

theorem getD_append_len (l1 l2 : List ℚ) (d : ℚ) :
    (l1 ++ l2).getD l1.length d = l2.getD 0 d := by
  induction l1 with
  | nil => simp
  | cons a l ih => simpa [List.getD_cons_succ] using ih

/-- The minimum bound actually used by the code at step `t`: `min_vol[t+1]`
for non-terminal steps (the entry `min_vol[0]` is never used), `final_vol`
at the terminal step. -/
theorem rhs_min_code_eq (tank : Tank) (T t : Nat)
    (hlen : tank.min_vol.length = T) (ht : t < T) :
    rhs_min_code tank t =
      if t = T - 1 then tank.final_vol else tank.min_vol.getD (t + 1) 0 := by
  unfold rhs_min_code
  match hmv : tank.min_vol with
  | [] =>
      rw [hmv] at hlen
      simp at hlen
      omega
  | m0 :: rest =>
      rw [hmv] at hlen
      simp only [List.length_cons] at hlen
      rw [List.drop_one, List.tail_cons]
      by_cases hterm : t = T - 1
      · have hrl : rest.length = t := by omega
        rw [if_pos hterm, ← hrl, getD_append_len, List.getD_cons_zero]
      · have hlt : t < rest.length := by omega
        rw [if_neg hterm, getD_append_lt rest [tank.final_vol] t 0 hlt,
          List.getD_cons_succ]

theorem mem_enum_of_get? {α : Type} (l : List α) (k : Nat) (a : α)
    (h : l.get? k = some a) : (k, a) ∈ l.enum :=
  List.mem_enum_iff_get?.mpr h

theorem length_pos_of_get? {α : Type} (l : List α) (k : Nat) (a : α)
    (h : l.get? k = some a) : l.length ≠ 0 := by
  intro hcontra
  rw [List.length_eq_zero] at hcontra
  subst hcontra
  simp at h

/-- Both deterministic rows of tank `k`, step `t`, are emitted. -/
theorem mass_balance_mem_det (elems : List Element) (T : Nat) (lou : ℚ)
    (tks : List Tank) (k : Nat) (tk : Tank) (hk : tks.get? k = some tk)
    (t : Nat) (ht : t < T) :
    (SConstr.mk (rowPairsFrom 0 (mb_row elems T tk t)) Rel.le
        (tk.max_vol + cumdem tk t - tk.initial_vol) [] true
      ∈ mass_balance elems T lou tks none)
    ∧ (SConstr.mk (rowPairsFrom 0 (mb_row elems T tk t)) Rel.ge
        (rhs_min_code tk t + cumdem tk t - tk.initial_vol) [] true
      ∈ mass_balance elems T lou tks none) := by
  unfold mass_balance
  rw [if_neg (length_pos_of_get? tks k tk hk)]
  constructor
  · exact List.mem_append_left _ (List.mem_flatMap.mpr
      ⟨(k, tk), mem_enum_of_get? tks k tk hk,
        List.mem_map.mpr ⟨t, List.mem_range.mpr ht, rfl⟩⟩)
  · exact List.mem_append_right _ (List.mem_flatMap.mpr
      ⟨(k, tk), mem_enum_of_get? tks k tk hk,
        List.mem_map.mpr ⟨t, List.mem_range.mpr ht, rfl⟩⟩)

/-- Both uncertainty-scaled rows of tank `k`, step `t`, are emitted. -/
theorem mass_balance_mem_unc (elems : List Element) (T : Nat) (lou : ℚ)
    (tks : List Tank) (δ : List (List ℚ)) (k : Nat) (tk : Tank)
    (hk : tks.get? k = some tk) (t : Nat) (ht : t < T) :
    (SConstr.mk (rowPairsFrom 0 (mb_row elems T tk t)) Rel.le
        (tk.max_vol + cumdem tk t - tk.initial_vol)
        [(k * T + t, lou * cumdem tk t)] true
      ∈ mass_balance elems T lou tks (some δ))
    ∧ (SConstr.mk (rowPairsFrom 0 (mb_row elems T tk t)) Rel.ge
        (rhs_min_code tk t + cumdem tk t - tk.initial_vol)
        [(k * T + t, lou * cumdem tk t)] true
      ∈ mass_balance elems T lou tks (some δ)) := by
  unfold mass_balance
  rw [if_neg (length_pos_of_get? tks k tk hk)]
  constructor
  · exact List.mem_append_left _ (List.mem_flatMap.mpr
      ⟨(k, tk), mem_enum_of_get? tks k tk hk,
        List.mem_map.mpr ⟨t, List.mem_range.mpr ht, rfl⟩⟩)
  · exact List.mem_append_right _ (List.mem_flatMap.mpr
      ⟨(k, tk), mem_enum_of_get? tks k tk hk,
        List.mem_map.mpr ⟨t, List.mem_range.mpr ht, rfl⟩⟩)

/-- **C3** (corrected). For every tank `k` in the builder's list and every
step `t < T`, `mass_balance` declares robustly (robust flag set) both
`lhs @ x ≤ max_vol + cumdem_t − initial_vol` and
`lhs @ x ≥ rhs_min_t + cumdem_t − initial_vol`, where `lhs @ x` equals the
cumulative net inflow through step `t`; semantically: initial volume plus
cumulative net inflow minus cumulative demand lies in
`[rhs_min_t, max_vol]`.  However the minimum bound at a *non-terminal* step
`t` is `min_vol[t+1]`, not `min_vol[t]` as claimed: the code builds
`np.append(min_vol[1:], final_vol)`, dropping `min_vol[0]` and shifting, so
only the terminal step gets `final_vol` and non-terminal step `t` gets
`min_vol[t+1]`. -/
theorem C3_mass_balance_volume_bounds (elems : List Element) (T : Nat)
    (lou : ℚ) (tks : List Tank) (k : Nat) (tk : Tank)
    (hk : tks.get? k = some tk) (t : Nat) (ht : t < T)
    (hlen : tk.min_vol.length = T) :
    (SConstr.mk (rowPairsFrom 0 (mb_row elems T tk t)) Rel.le
        (tk.max_vol + cumdem tk t - tk.initial_vol) [] true
      ∈ mass_balance elems T lou tks none)
    ∧ (SConstr.mk (rowPairsFrom 0 (mb_row elems T tk t)) Rel.ge
        (rhs_min_code tk t + cumdem tk t - tk.initial_vol) [] true
      ∈ mass_balance elems T lou tks none)
    ∧ (∀ x z : Nat → ℚ,
        (SConstr.mk (rowPairsFrom 0 (mb_row elems T tk t)) Rel.le
          (tk.max_vol + cumdem tk t - tk.initial_vol) [] true).sat x z ↔
        tk.initial_vol + spec_net_cumflow elems T tk t x - cumdem tk t ≤
          tk.max_vol)
    ∧ (∀ x z : Nat → ℚ,
        (SConstr.mk (rowPairsFrom 0 (mb_row elems T tk t)) Rel.ge
          (rhs_min_code tk t + cumdem tk t - tk.initial_vol) [] true).sat
            x z ↔
        rhs_min_code tk t ≤
          tk.initial_vol + spec_net_cumflow elems T tk t x - cumdem tk t)
    ∧ (rhs_min_code tk t =
        if t = T - 1 then tk.final_vol
        else tk.min_vol.getD (t + 1) 0) := by
  obtain ⟨hle, hge⟩ := mass_balance_mem_det elems T lou tks k tk hk t ht
  refine ⟨hle, hge, ?_, ?_, rhs_min_code_eq tk T t hlen ht⟩
  · intro x z
    unfold SConstr.sat Rel.holds
    simp only [lcEval, List.map_nil, List.sum_nil, add_zero]
    rw [show (List.map (fun p => p.2 * x p.1)
        (rowPairsFrom 0 (mb_row elems T tk t))).sum =
      lcEval (rowPairsFrom 0 (mb_row elems T tk t)) x from rfl]
    rw [mb_row_eval elems T tk t x ht]
    constructor <;> intro h <;> linarith
  · intro x z
    unfold SConstr.sat Rel.holds
    simp only [lcEval, List.map_nil, List.sum_nil, add_zero]
    rw [show (List.map (fun p => p.2 * x p.1)
        (rowPairsFrom 0 (mb_row elems T tk t))).sum =
      lcEval (rowPairsFrom 0 (mb_row elems T tk t)) x from rfl]
    rw [mb_row_eval elems T tk t x ht]
    constructor <;> intro h <;> linarith

/-- **C3** counterexample to the claim as stated: a tank with
`min_vol = [0, 1, 2]`, `final_vol = 5`, zero demand, zero initial volume,
over `T = 3` and no flow elements.  The emitted `≥` bound at the
non-terminal step 0 is `min_vol[1] = 1`, not the claimed `min_vol[0] = 0`
(`rhs_min_spec` renders the claim's words): the constraint with bound `1`
is in the built system and no `≥`-constraint with bound `0` is. -/
theorem C3_counterexample :
    rhs_min_code
        (Tank.mk "tk" [0, 0, 0] [0, 1, 2] 10 5 0 [] [] [] [] []) 0 = 1 ∧
    rhs_min_spec
        (Tank.mk "tk" [0, 0, 0] [0, 1, 2] 10 5 0 [] [] [] [] []) 3 0 = 0 ∧
    (SConstr.mk [] Rel.ge 1 [] true ∈ mass_balance [] 3 0
        [Tank.mk "tk" [0, 0, 0] [0, 1, 2] 10 5 0 [] [] [] [] []] none) ∧
    (SConstr.mk [] Rel.ge 0 [] true ∉ mass_balance [] 3 0
        [Tank.mk "tk" [0, 0, 0] [0, 1, 2] 10 5 0 [] [] [] [] []] none) := by
  refine ⟨?_, ?_, ?_, ?_⟩
  · rfl
  · rfl
  · have h := (mass_balance_mem_det [] 3 0
      [Tank.mk "tk" [0, 0, 0] [0, 1, 2] 10 5 0 [] [] [] [] []] 0
      (Tank.mk "tk" [0, 0, 0] [0, 1, 2] 10 5 0 [] [] [] [] []) rfl 0
      (by omega)).2
    have heq : rhs_min_code
        (Tank.mk "tk" [0, 0, 0] [0, 1, 2] 10 5 0 [] [] [] [] []) 0 +
        cumdem (Tank.mk "tk" [0, 0, 0] [0, 1, 2] 10 5 0 [] [] [] [] []) 0 -
        (Tank.mk "tk" [0, 0, 0] [0, 1, 2] 10 5 0 [] [] [] [] []).initial_vol
        = 1 := by
      norm_num [rhs_min_code, cumdem, cumsum, cumsumFrom]
    rw [heq] at h
    exact h
  · intro hmem
    have : ∀ c ∈ mass_balance [] 3 0
        [Tank.mk "tk" [0, 0, 0] [0, 1, 2] 10 5 0 [] [] [] [] []] none,
        c.rel = Rel.ge → c.rcst ≠ 0 := by
      intro c hc
      unfold mass_balance at hc
      rw [if_neg (by simp)] at hc
      rw [List.mem_append] at hc
      rcases hc with hc | hc <;>
      · obtain ⟨ktk, hktk, hc2⟩ := List.mem_flatMap.mp hc
        obtain ⟨t, htr, rfl⟩ := List.mem_map.mp hc2
        simp only [List.enum] at hktk
        intro _
        simp only [List.mem_range] at htr
        interval_cases t <;>
          simp_all [rhs_min_code, cumdem, cumsum, cumsumFrom]
    exact this _ hmem rfl rfl

/-- **C3** witness: one continuous inflow element, `T = 2`, a tank with
`min_vol = [0, 3]`: the step-0 minimum-bound constraint carries
`min_vol[1] = 3` and is among the emitted constraints. -/
theorem C3_mass_balance_volume_bounds_witness :
    (([Tank.mk "tk" [1, 2] [0, 3] 10 4 5 ["p"] [] [] [] []]).get? 0 =
      some (Tank.mk "tk" [1, 2] [0, 3] 10 4 5 ["p"] [] [] [] [])) ∧
    ((0 : Nat) < 2) ∧
    ((Tank.mk "tk" [1, 2] [0, 3] 10 4 5 ["p"] [] [] [] []).min_vol.length
      = 2) ∧
    (rhs_min_code (Tank.mk "tk" [1, 2] [0, 3] 10 4 5 ["p"] [] [] [] []) 0 =
      if (0 : Nat) = 2 - 1 then
        (Tank.mk "tk" [1, 2] [0, 3] 10 4 5 ["p"] [] [] [] []).final_vol
      else (Tank.mk "tk" [1, 2] [0, 3] 10 4 5
        ["p"] [] [] [] []).min_vol.getD (0 + 1) 0) ∧
    (SConstr.mk (rowPairsFrom 0 (mb_row [Element.mk "p" none []] 2
        (Tank.mk "tk" [1, 2] [0, 3] 10 4 5 ["p"] [] [] [] []) 0)) Rel.ge
        (rhs_min_code (Tank.mk "tk" [1, 2] [0, 3] 10 4 5 ["p"] [] [] [] [])
          0 + cumdem (Tank.mk "tk" [1, 2] [0, 3] 10 4 5 ["p"] [] [] [] [])
          0 - (Tank.mk "tk" [1, 2] [0, 3] 10 4 5
            ["p"] [] [] [] []).initial_vol) [] true
      ∈ mass_balance [Element.mk "p" none []] 2 0
        [Tank.mk "tk" [1, 2] [0, 3] 10 4 5 ["p"] [] [] [] []] none) := by
  have h := C3_mass_balance_volume_bounds [Element.mk "p" none []] 2 0
    [Tank.mk "tk" [1, 2] [0, 3] 10 4 5 ["p"] [] [] [] []] 0
    (Tank.mk "tk" [1, 2] [0, 3] 10 4 5 ["p"] [] [] [] []) rfl 0
    (by omega) rfl
  exact ⟨rfl, by omega, rfl, h.2.2.2.2, h.2.1⟩

/-- **C4** (confirmed). The builder's output is independent of the affine
sensitivity map `delta` (the `affine_map @ z` term is commented out and
never added); every tank subject to demand uncertainty gets rows whose rhs
is exactly `bound + (1 + lou·z_r) * cumdem_r − initial_vol` — the
elementwise `(1 + lou·z_flat) ⊙ nominal cumulative demand` offset, carried
as the single rhs `z` coefficient `(r, lou·cumdem_r)` — and every tank not
subject to the uncertainty model gets rows with no `z` dependence and the
fixed nominal cumulative demand offset. -/
theorem C4_uncertain_demand_offset (elems : List Element) (T : Nat)
    (lou : ℚ) (tks : List Tank) (u : DemandUncertainty)
    (δ2 : List (List ℚ)) :
    (build_mass_balance elems T lou tks (some u) =
      build_mass_balance elems T lou tks
        (some (DemandUncertainty.mk u.elements δ2)))
    ∧ (∀ k tk,
        (tks.filter fun tk2 => tk2.name ∈ u.elements).get? k = some tk →
        ∀ t, t < T →
        (SConstr.mk (rowPairsFrom 0 (mb_row elems T tk t)) Rel.le
            (tk.max_vol + cumdem tk t - tk.initial_vol)
            [(k * T + t, lou * cumdem tk t)] true
          ∈ build_mass_balance elems T lou tks (some u))
        ∧ (SConstr.mk (rowPairsFrom 0 (mb_row elems T tk t)) Rel.ge
            (rhs_min_code tk t + cumdem tk t - tk.initial_vol)
            [(k * T + t, lou * cumdem tk t)] true
          ∈ build_mass_balance elems T lou tks (some u))
        ∧ (∀ x z : Nat → ℚ,
            (SConstr.mk (rowPairsFrom 0 (mb_row elems T tk t)) Rel.le
              (tk.max_vol + cumdem tk t - tk.initial_vol)
              [(k * T + t, lou * cumdem tk t)] true).sat x z ↔
            lcEval (rowPairsFrom 0 (mb_row elems T tk t)) x ≤
              tk.max_vol + (1 + lou * z (k * T + t)) * cumdem tk t -
                tk.initial_vol))
    ∧ (∀ k tk,
        (tks.filter fun tk2 => ¬(tk2.name ∈ u.elements)).get? k = some tk →
        ∀ t, t < T →
        (SConstr.mk (rowPairsFrom 0 (mb_row elems T tk t)) Rel.le
            (tk.max_vol + cumdem tk t - tk.initial_vol) [] true
          ∈ build_mass_balance elems T lou tks (some u))
        ∧ (SConstr.mk (rowPairsFrom 0 (mb_row elems T tk t)) Rel.ge
            (rhs_min_code tk t + cumdem tk t - tk.initial_vol) [] true
          ∈ build_mass_balance elems T lou tks (some u))
        ∧ (∀ x z : Nat → ℚ,
            (SConstr.mk (rowPairsFrom 0 (mb_row elems T tk t)) Rel.le
              (tk.max_vol + cumdem tk t - tk.initial_vol) [] true).sat
                x z ↔
            lcEval (rowPairsFrom 0 (mb_row elems T tk t)) x ≤
              tk.max_vol + cumdem tk t - tk.initial_vol)) := by
  refine ⟨rfl, ?_, ?_⟩
  · intro k tk hk t ht
    obtain ⟨hle, hge⟩ := mass_balance_mem_unc elems T lou
      (tks.filter fun tk2 => tk2.name ∈ u.elements) u.delta k tk hk t ht
    refine ⟨List.mem_append_left _ hle, List.mem_append_left _ hge, ?_⟩
    intro x z
    unfold SConstr.sat Rel.holds
    simp only [lcEval, List.map_cons, List.map_nil, List.sum_cons,
      List.sum_nil, add_zero]
    constructor <;> intro hs <;> [linarith; linarith]
  · intro k tk hk t ht
    obtain ⟨hle, hge⟩ := mass_balance_mem_det elems T lou
      (tks.filter fun tk2 => ¬(tk2.name ∈ u.elements)) k tk hk t ht
    refine ⟨List.mem_append_right _ hle, List.mem_append_right _ hge, ?_⟩
    intro x z
    unfold SConstr.sat Rel.holds
    simp only [lcEval, List.map_nil, List.sum_nil, add_zero]

/-- **C4** witness: tanks `u1` (uncertain) and `d1` (deterministic) over
`T = 1`: `u1`'s row carries the `z` coefficient `lou * cumdem`, `d1`'s rows
carry none, and the output is unchanged when `delta` is replaced. -/
theorem C4_uncertain_demand_offset_witness :
    (([Tank.mk "u1" [2] [0] 10 1 0 [] [] [] [] [],
       Tank.mk "d1" [3] [0] 10 1 0 [] [] [] [] []].filter
        fun tk2 => tk2.name ∈ ["u1"]).get? 0 =
      some (Tank.mk "u1" [2] [0] 10 1 0 [] [] [] [] [])) ∧
    ((0 : Nat) < 1) ∧
    (SConstr.mk (rowPairsFrom 0 (mb_row [] 1
        (Tank.mk "u1" [2] [0] 10 1 0 [] [] [] [] []) 0)) Rel.le
        ((Tank.mk "u1" [2] [0] 10 1 0 [] [] [] [] []).max_vol +
          cumdem (Tank.mk "u1" [2] [0] 10 1 0 [] [] [] [] []) 0 -
          (Tank.mk "u1" [2] [0] 10 1 0 [] [] [] [] []).initial_vol)
        [(0 * 1 + 0, (1/2) * cumdem
          (Tank.mk "u1" [2] [0] 10 1 0 [] [] [] [] []) 0)] true
      ∈ build_mass_balance [] 1 (1/2)
        [Tank.mk "u1" [2] [0] 10 1 0 [] [] [] [] [],
         Tank.mk "d1" [3] [0] 10 1 0 [] [] [] [] []]
        (some (DemandUncertainty.mk ["u1"] [[1]]))) ∧
    (build_mass_balance [] 1 (1/2)
        [Tank.mk "u1" [2] [0] 10 1 0 [] [] [] [] [],
         Tank.mk "d1" [3] [0] 10 1 0 [] [] [] [] []]
        (some (DemandUncertainty.mk ["u1"] [[1]])) =
      build_mass_balance [] 1 (1/2)
        [Tank.mk "u1" [2] [0] 10 1 0 [] [] [] [] [],
         Tank.mk "d1" [3] [0] 10 1 0 [] [] [] [] []]
        (some (DemandUncertainty.mk ["u1"] [[7]]))) := by
  have h := C4_uncertain_demand_offset [] 1 (1/2)
    [Tank.mk "u1" [2] [0] 10 1 0 [] [] [] [] [],
     Tank.mk "d1" [3] [0] 10 1 0 [] [] [] [] []]
    (DemandUncertainty.mk ["u1"] [[1]]) [[7]]
  refine ⟨rfl, by omega, ?_, h.1⟩
  exact (h.2.1 0 (Tank.mk "u1" [2] [0] 10 1 0 [] [] [] [] []) rfl 0
    (by omega)).1

/-- An element's state as touched by policy extraction: static `flow`
parameters and the overwritable `value` series (`vars['value']`). -/
structure NetElement where
  name : String
  combs : Option Nat
  flow : List ℚ
  value : List ℚ
deriving DecidableEq, Repr

/-- `len(combs)` for comb elements, 1 for continuous ones. -/
def NetElement.sc (e : NetElement) : Nat :=
  match e.combs with
  | some c => c
  | none => 1

/-- A tank's state as touched by `tanks_balance`: static demand, initial
volume and contributor lists; mutable `value` (volume) and `inflow`
series. -/
structure NetTank where
  name : String
  demand : List ℚ
  initial_vol : ℚ
  value : List ℚ
  inflow : List ℚ
  pumps_inflows : List String
  cv_inflows : List String
  vsp_inflows : List String
  v_inflows : List String
  pumps_outflows : List String
  cv_outflows : List String
  vsp_outflows : List String
  v_outflows : List String
deriving DecidableEq, Repr

/-- The mutable network state read and written by policy extraction:
per-element tables, per-tank tables, and the flat `sim.vars['value']`
column. -/
structure NetState where
  elements : List NetElement
  tanks : List NetTank
  simVarsValue : List ℚ
deriving DecidableEq, Repr

/-- The solved affine policy: per decision entry its constant (`x.get()`)
and its coefficients over the flattened uncertain vector (`x.get(z)`). -/
structure LdrSol where
  pi0 : List ℚ
  piz : List (List ℚ)
deriving DecidableEq, Repr

/-- `ARO.retrieve_decision_vars`: `sample=None` defaults to
`np.zeros(z.shape)`; `x(z.assign(sample))` evaluates entry `i` of the
affine rule to `pi0[i] + Σ_j piz[i][j] * sample[j]`. -/
def retrieve_decision_vars (sol : LdrSol) (sample : Option (List ℚ)) :
    List ℚ :=
  let s := match sample with
    | none => List.replicate (sol.piz.getD 0 []).length 0
    | some v => v
  (List.range sol.pi0.length).map fun i =>
    sol.pi0.getD i 0 +
      ((sol.piz.getD i []).enum.map fun jq => jq.2 * s.getD jq.1 0).sum

/-- `x[xmin_idx:xmax_idx]` for each element in order:
`self.sim.network[name].vars['value'] = x[xmin_idx:xmax_idx]`. -/
def writeValues (x : List ℚ) (T : Nat) :
    List NetElement → Nat → List NetElement
  | [], _ => []
  | e :: rest, off =>
      { e with value := (x.drop off).take (e.sc * T) } ::
        writeValues x T rest (off + e.sc * T)

/-- `(x.vars['flow'] * x.vars['value']).groupby(level='time').sum()` at step
`t` for a discrete-state contributor (rows are step-major `(t, comb)`
pairs). -/
def combFlowAt (e : NetElement) (t : Nat) : ℚ :=
  ∑ s ∈ Finset.range e.sc,
    e.flow.getD (t * e.sc + s) 0 * e.value.getD (t * e.sc + s) 0

/-- One tank's realized inflow at step `t`: pump/control-valve contributors
enter as flow × selected value, VSP/valve contributors as the value itself;
outflows negated (the `df.sum(axis=1)` of `tanks_balance`; a missing
element name would make the pandas merge fail, modeled as contributing
nothing). -/
def tankInflow (elems : List NetElement) (tk : NetTank) (t : Nat) : ℚ :=
  (((tk.pumps_inflows ++ tk.cv_inflows).map fun n =>
    match elems.find? (fun e => e.name == n) with
    | some e => combFlowAt e t
    | none => 0).sum)
  + (((tk.vsp_inflows ++ tk.v_inflows).map fun n =>
    match elems.find? (fun e => e.name == n) with
    | some e => e.value.getD t 0
    | none => 0).sum)
  - (((tk.pumps_outflows ++ tk.cv_outflows).map fun n =>
    match elems.find? (fun e => e.name == n) with
    | some e => combFlowAt e t
    | none => 0).sum)
  - (((tk.vsp_outflows ++ tk.v_outflows).map fun n =>
    match elems.find? (fun e => e.name == n) with
    | some e => e.value.getD t 0
    | none => 0).sum)

/-- `ARO.tanks_balance`: recompute each tank's realized inflow from the
just-written element values, then its volume trajectory
`initial_vol + (inflow - demand).cumsum()`; write both back. -/
def tanks_balance (T : Nat) (net : NetState) : NetState :=
  { net with tanks := net.tanks.map fun tk =>
      let infl := (List.range T).map fun t => tankInflow net.elements tk t
      { tk with
        inflow := infl
        value := (cumsum ((List.range T).map fun t =>
          infl.getD t 0 - tk.demand.getD t 0)).map fun q =>
            tk.initial_vol + q } }

/-- `ARO.get_results`: evaluate the policy at the (default nominal) sample,
write each element's block and the flat `value` column, then recompute the
tank trajectories. -/
def get_results (T : Nat) (sol : LdrSol) (sample : Option (List ℚ))
    (net : NetState) : NetState :=
  let x := retrieve_decision_vars sol sample
  tanks_balance T
    { net with
      elements := writeValues x T net.elements 0
      simVarsValue := x }

/-- The static (never-written) part of an element. -/
def NetElement.clearValue (e : NetElement) : NetElement :=
  { e with value := [] }

/-- The static (never-written) part of a tank. -/
def NetTank.clearMut (tk : NetTank) : NetTank :=
  { tk with value := [], inflow := [] }

/-- The static part of the network state: everything policy extraction
reads except the mutable value/inflow columns it overwrites. -/
def staticOf (net : NetState) : List NetElement × List NetTank :=
  (net.elements.map NetElement.clearValue, net.tanks.map NetTank.clearMut)

theorem writeValues_congr (x : List ℚ) (T : Nat) :
    ∀ (l1 l2 : List NetElement) (off : Nat),
    l1.map NetElement.clearValue = l2.map NetElement.clearValue →
    writeValues x T l1 off = writeValues x T l2 off := by
  intro l1
  induction l1 with
  | nil =>
      intro l2 off h
      cases l2 with
      | nil => rfl
      | cons e2 r2 => simp at h
  | cons e1 r1 ih =>
      intro l2 off h
      cases l2 with
      | nil => simp at h
      | cons e2 r2 =>
          simp only [List.map_cons, List.cons.injEq] at h
          obtain ⟨hh, ht⟩ := h
          have hcombs : e1.combs = e2.combs := by
            simpa [NetElement.clearValue] using congrArg NetElement.combs hh
          have hsc : e1.sc = e2.sc := by
            rw [NetElement.sc, NetElement.sc, hcombs]
          rw [writeValues, writeValues, ih r2 (off + e1.sc * T) ht, hsc]
          have hname : e1.name = e2.name := by
            simpa [NetElement.clearValue] using congrArg NetElement.name hh
          have hflow : e1.flow = e2.flow := by
            simpa [NetElement.clearValue] using congrArg NetElement.flow hh
          cases e1
          cases e2
          simp_all

theorem writeValues_clearValue (x : List ℚ) (T : Nat) :
    ∀ (l : List NetElement) (off : Nat),
    (writeValues x T l off).map NetElement.clearValue =
      l.map NetElement.clearValue := by
  intro l
  induction l with
  | nil => intro off; rfl
  | cons e r ih =>
      intro off
      rw [writeValues, List.map_cons, List.map_cons, ih]
      rfl

theorem tanks_balance_congr (T : Nat) (E : List NetElement)
    (ts1 ts2 : List NetTank) (v : List ℚ)
    (h : ts1.map NetTank.clearMut = ts2.map NetTank.clearMut) :
    tanks_balance T (NetState.mk E ts1 v) =
      tanks_balance T (NetState.mk E ts2 v) := by
  unfold tanks_balance
  simp only [NetState.mk.injEq]
  refine ⟨trivial, ?_, trivial⟩
  induction ts1 generalizing ts2 with
  | nil =>
      cases ts2 with
      | nil => rfl
      | cons t2 r2 => simp at h
  | cons t1 r1 ih =>
      cases ts2 with
      | nil => simp at h
      | cons t2 r2 =>
          simp only [List.map_cons, List.cons.injEq] at h
          obtain ⟨hh, ht⟩ := h
          rw [List.map_cons, List.map_cons, ih r2 ht]
          have h1 : t1.demand = t2.demand := by simpa [NetTank.clearMut] using congrArg NetTank.demand hh
          have h2 : t1.initial_vol = t2.initial_vol :=
            by simpa [NetTank.clearMut] using congrArg NetTank.initial_vol hh
          have h3 : t1.name = t2.name := by simpa [NetTank.clearMut] using congrArg NetTank.name hh
          have h4 : t1.pumps_inflows = t2.pumps_inflows :=
            by simpa [NetTank.clearMut] using congrArg NetTank.pumps_inflows hh
          have h5 : t1.cv_inflows = t2.cv_inflows :=
            by simpa [NetTank.clearMut] using congrArg NetTank.cv_inflows hh
          have h6 : t1.vsp_inflows = t2.vsp_inflows :=
            by simpa [NetTank.clearMut] using congrArg NetTank.vsp_inflows hh
          have h7 : t1.v_inflows = t2.v_inflows :=
            by simpa [NetTank.clearMut] using congrArg NetTank.v_inflows hh
          have h8 : t1.pumps_outflows = t2.pumps_outflows :=
            by simpa [NetTank.clearMut] using congrArg NetTank.pumps_outflows hh
          have h9 : t1.cv_outflows = t2.cv_outflows :=
            by simpa [NetTank.clearMut] using congrArg NetTank.cv_outflows hh
          have h10 : t1.vsp_outflows = t2.vsp_outflows :=
            by simpa [NetTank.clearMut] using congrArg NetTank.vsp_outflows hh
          have h11 : t1.v_outflows = t2.v_outflows :=
            by simpa [NetTank.clearMut] using congrArg NetTank.v_outflows hh
          have hinfl : tankInflow E t1 = tankInflow E t2 := by
            funext t
            rw [tankInflow, tankInflow, h4, h5, h6, h7, h8, h9, h10, h11]
          cases t1
          cases t2
          simp_all [tankInflow]

theorem tanks_balance_clearMut (T : Nat) (net : NetState) :
    (tanks_balance T net).tanks.map NetTank.clearMut =
      net.tanks.map NetTank.clearMut := by
  unfold tanks_balance
  simp only [List.map_map]
  apply List.map_congr_left
  intro tk _
  rfl

/-- `get_results` is a function of the solved policy, the sample and the
static network data only. -/
theorem get_results_congr (T : Nat) (sol : LdrSol)
    (sample : Option (List ℚ)) (n1 n2 : NetState)
    (h : staticOf n1 = staticOf n2) :
    get_results T sol sample n1 = get_results T sol sample n2 := by
  unfold staticOf at h
  rw [Prod.mk.injEq] at h
  obtain ⟨he, htk⟩ := h
  unfold get_results
  have hw : writeValues (retrieve_decision_vars sol sample) T n1.elements 0 =
      writeValues (retrieve_decision_vars sol sample) T n2.elements 0 :=
    writeValues_congr _ T n1.elements n2.elements 0 he
  dsimp only
  rw [hw]
  exact tanks_balance_congr T _ n1.tanks n2.tanks _ htk

theorem get_results_static (T : Nat) (sol : LdrSol)
    (sample : Option (List ℚ)) (net : NetState) :
    staticOf (get_results T sol sample net) = staticOf net := by
  unfold staticOf get_results
  dsimp only
  rw [Prod.mk.injEq]
  constructor
  · rw [show (tanks_balance T (NetState.mk
        (writeValues (retrieve_decision_vars sol sample) T net.elements 0)
        net.tanks (retrieve_decision_vars sol sample))).elements =
      writeValues (retrieve_decision_vars sol sample) T net.elements 0
      from rfl]
    exact writeValues_clearValue _ T net.elements 0
  · exact tanks_balance_clearMut T _

/-- **C10** (confirmed). Policy extraction is deterministic: the affine rule
is a pure function of the solved policy and the realization (the default
`None` sample evaluates exactly as the explicit all-zeros realization);
`get_results` depends only on the solved policy, the sample and the static
network data — not on any previously written value/inflow column — and
extracting twice with the same realization leaves the state of the first
extraction unchanged (identical decision values and identical written-back
per-element series). -/
theorem C10_policy_extraction_deterministic (T : Nat) (sol : LdrSol)
    (sample : Option (List ℚ)) (n1 n2 : NetState)
    (h : staticOf n1 = staticOf n2) :
    (get_results T sol none n1 = get_results T sol
      (some (List.replicate (sol.piz.getD 0 []).length 0)) n1)
    ∧ get_results T sol sample n1 = get_results T sol sample n2
    ∧ get_results T sol sample (get_results T sol sample n1) =
        get_results T sol sample n1 := by
  refine ⟨rfl, get_results_congr T sol sample n1 n2 h, ?_⟩
  exact get_results_congr T sol sample _ n1
    (get_results_static T sol sample n1)

/-- **C10** witness: two states sharing static data but holding different
stale `value` columns extract to the same state, and re-extraction is
idempotent. -/
theorem C10_policy_extraction_deterministic_witness :
    (staticOf (NetState.mk [NetElement.mk "p" none [1] [9]]
        [NetTank.mk "tk" [1] 5 [7] [7] [] [] ["p"] [] [] [] [] []] [9]) =
      staticOf (NetState.mk [NetElement.mk "p" none [1] [0]]
        [NetTank.mk "tk" [1] 5 [] [] [] [] ["p"] [] [] [] [] []] [])) ∧
    get_results 1 (LdrSol.mk [2] [[0]]) none
        (NetState.mk [NetElement.mk "p" none [1] [9]]
          [NetTank.mk "tk" [1] 5 [7] [7] [] [] ["p"] [] [] [] [] []] [9]) =
      get_results 1 (LdrSol.mk [2] [[0]]) none
        (NetState.mk [NetElement.mk "p" none [1] [0]]
          [NetTank.mk "tk" [1] 5 [] [] [] [] ["p"] [] [] [] [] []] []) := by
  have h := C10_policy_extraction_deterministic 1 (LdrSol.mk [2] [[0]]) none
    (NetState.mk [NetElement.mk "p" none [1] [9]]
      [NetTank.mk "tk" [1] 5 [7] [7] [] [] ["p"] [] [] [] [] []] [9])
    (NetState.mk [NetElement.mk "p" none [1] [0]]
      [NetTank.mk "tk" [1] 5 [] [] [] [] ["p"] [] [] [] [] []] [])
    rfl
  exact ⟨rfl, h.2.1⟩

/-- Module-level `GRB_STATUS` table. -/
def GRB_STATUS : List (Nat × String) :=
  [(1, "LOADED"), (2, "OPTIMAL"), (3, "INFEASIBLE"), (4, "INF_OR_UNBD"),
   (5, "UNBOUNDED")]

/-- Python dict subscript `GRB_STATUS[status]`: `KeyError` on a missing
key. -/
def dictGet (d : List (Nat × String)) (k : Nat) : Except PyErr String :=
  match d.find? (fun p => p.1 = k) with
  | some p => Except.ok p.2
  | none => Except.error PyErr.keyError

/-- `ARO.solve`: the rsome/Gurobi call is the external solver boundary,
modeled as handing back the native status code, the solved policy and the
objective value.  The body then translates the code through `GRB_STATUS`,
populates the network via `get_results` (policy extraction at the nominal
realization), and returns `(status, obj)`. -/
def solve (T : Nat) (solverStatus : Nat) (obj : ℚ) (sol : LdrSol)
    (net : NetState) : Except PyErr (String × ℚ × NetState) := do
  let status ← dictGet GRB_STATUS solverStatus
  let net2 := get_results T sol none net
  return (status, obj, net2)

/-- **C9** (corrected). For every solver-native status in the `GRB_STATUS`
table (codes 1–5), `solve` returns the pair of the mapped status string and
the objective, with the network's decision values populated by policy
extraction before returning — in particular every mapped non-OPTIMAL status
(LOADED, INFEASIBLE, INF_OR_UNBD, UNBOUNDED) is returned, not raised.  But
not *always*: a native status outside the table raises `KeyError` (see the
counterexample), so the claim's "always returns a pair" had to be restricted
to the five tabulated codes. -/
theorem C9_solve_status_mapping (T : Nat) (status : Nat) (obj : ℚ)
    (sol : LdrSol) (net : NetState) (name : String)
    (h : (status, name) ∈ GRB_STATUS) :
    solve T status obj sol net =
      Except.ok (name, obj, get_results T sol none net) := by
  simp only [GRB_STATUS, List.mem_cons, List.not_mem_nil, or_false,
    Prod.mk.injEq] at h
  rcases h with ⟨rfl, rfl⟩ | ⟨rfl, rfl⟩ | ⟨rfl, rfl⟩ | ⟨rfl, rfl⟩ |
    ⟨rfl, rfl⟩ <;> rfl

/-- **C9** witness: the non-OPTIMAL native status 3 is returned as
`"INFEASIBLE"` together with the objective, after populating results. -/
theorem C9_solve_status_mapping_witness :
    ((3, "INFEASIBLE") ∈ GRB_STATUS) ∧
      solve 1 3 0 (LdrSol.mk [] []) (NetState.mk [] [] []) =
        Except.ok ("INFEASIBLE", 0,
          get_results 1 (LdrSol.mk [] []) none (NetState.mk [] [] [])) :=
  ⟨by decide,
    C9_solve_status_mapping 1 3 0 (LdrSol.mk [] []) (NetState.mk [] [] [])
      "INFEASIBLE" (by decide)⟩

/-- **C9** counterexample to the claim as stated: the solver-native status
9 (Gurobi `TIME_LIMIT`) is not in `GRB_STATUS`, so `solve` raises
`KeyError` instead of returning a `(status, objective)` pair. -/
theorem C9_counterexample :
    solve 1 9 0 (LdrSol.mk [] []) (NetState.mk [] [] []) =
      Except.error PyErr.keyError := rfl

end aropt
